import Mathlib

/-!
vtu11: the array writers of `vtu11/impl/writer_impl.hpp`

A shallow embedding of the four writers (`AsciiWriter`, `Base64BinaryWriter`,
`Base64BinaryAppendedWriter`, `RawBinaryAppendedWriter`) together with theorems
about the bytes they emit and the offsets they record.

Modelling conventions
* a `std::ostream` is the list of bytes appended to it so far (`Sink`);
* a `std::vector<T>` handed to a binary writer is its element size, its element
  count and the bytes found at `&data[0]` (`TypedArray`);
* `HeaderType` is declared in a header that is not part of the two files
  embedded here, so its width and the byte order of the machine are parameters
  (`Target`); the conversion to `HeaderType` is reduction modulo `2 ^ (8 * width)`;
* `size_t` quantities (the running `offset`, byte counts handed to
  `encodedNumberOfBytes`) are natural numbers.
-/

namespace Vtu11

/-! ## Bytes, streams, strings -/

/-- One `char` of storage. -/
abbrev Byte := Fin 256

/-- An output stream: the bytes written to it so far, oldest first. -/
abbrev Sink := List Byte

/-- The byte that a character of program text occupies in the stream. -/
def charByte (c : Char) : Byte := ⟨c.toNat % 256, Nat.mod_lt _ (by decide)⟩

/-- Text as stream bytes. -/
def textBytes (s : List Char) : List Byte := s.map charByte

/-- The stream after `output << s` for a string `s`. -/
def putStr (output : Sink) (s : List Char) : Sink := output ++ textBytes s

/-- The stream after `output << c` for every `char` of `bs`, in order. -/
def putBytes (output : Sink) (bs : List Byte) : Sink := output ++ bs

/-! ## Header type and typed arrays -/

/-- The properties of the build the writers depend on: `sizeof( HeaderType )`,
which is at least 1 as for every object type, and the native byte order. -/
structure Target where
  headerSize : Nat
  bigEndian : Bool
  headerSize_pos : 0 < headerSize

/-- Conversion of a `size_t` to `HeaderType` (an unsigned type of
`headerSize` bytes): reduction modulo `2 ^ (8 * headerSize)`. -/
def toHeaderType (t : Target) (n : Nat) : Nat := n % 2 ^ (8 * t.headerSize)

/-- The `k` low-order bytes of `v`, least significant first. -/
def leBytes : Nat → Nat → List Byte
  | 0, _ => []
  | k + 1, v => ⟨v % 256, Nat.mod_lt _ (by decide)⟩ :: leBytes k (v / 256)

/-- The object representation of the `HeaderType` value `v`: `headerSize`
bytes in native order. -/
def headerBytes (t : Target) (v : Nat) : List Byte :=
  if t.bigEndian then (leBytes t.headerSize v).reverse else leBytes t.headerSize v

/-- A `const std::vector<T>&`: `elemSize` is `sizeof( T )`, `size` is
`data.size( )`, and `mem` holds the bytes of the elements, i.e. what is read
through `reinterpret_cast<const char*>( &data[0] )`. -/
structure TypedArray where
  elemSize : Nat
  size : Nat
  mem : List Byte
  wf : mem.length = size * elemSize

/-- The number of bytes the elements of the array occupy. -/
def TypedArray.byteCount (a : TypedArray) : Nat := a.size * a.elemSize

/-- The byte count of the array is representable in `HeaderType`. -/
def TypedArray.Fits (t : Target) (a : TypedArray) : Prop :=
  a.byteCount < 2 ^ (8 * t.headerSize)

instance (t : Target) (a : TypedArray) : Decidable (a.Fits t) := by
  unfold TypedArray.Fits; infer_instance

/-! ## The byte-text codec -/

/-- The 64-symbol alphabet. -/
def base64Map : List Char :=
  "ABCDEFGHIJKLMNOPQRSTUVWXYZabcdefghijklmnopqrstuvwxyz0123456789+/".toList

/-- The symbol for the six-bit value `i`. -/
def base64Symbol (i : Nat) : Char := base64Map.getD (i % 64) 'A'

/-- Modelled from the spec: `base64Encode` is defined in `inc/utilities.hpp`,
which is not among the embedded files. Every three input bytes give four
symbols of the 64-symbol alphabet; a final group of one or two bytes is filled
with zero bits and padded with `=` to four characters. -/
def base64Encode : List Byte → List Char
  | [] => []
  | [a] => [base64Symbol (a.val / 4), base64Symbol (a.val % 4 * 16), '=', '=']
  | [a, b] =>
    [base64Symbol (a.val / 4), base64Symbol (a.val % 4 * 16 + b.val / 16),
     base64Symbol (b.val % 16 * 4), '=']
  | a :: b :: c :: rest =>
    base64Symbol (a.val / 4) :: base64Symbol (a.val % 4 * 16 + b.val / 16) ::
    base64Symbol (b.val % 16 * 4 + c.val / 64) :: base64Symbol (c.val % 64) ::
    base64Encode rest

/-- Modelled from the spec: `encodedNumberOfBytes` is defined in
`inc/utilities.hpp`, which is not among the embedded files. It is the number of
characters the codec produces for `rawNumberOfBytes` bytes: four for every
started group of three. -/
def encodedNumberOfBytes (rawNumberOfBytes : Nat) : Nat :=
  4 * ((rawNumberOfBytes + 2) / 3)

/-- The byte with the value `n` (taken modulo 256). -/
def byteOf (n : Nat) : Byte := ⟨n % 256, Nat.mod_lt _ (by decide)⟩

/-- The six-bit value of a symbol of the alphabet; none for any other character. -/
def base64Index (c : Char) : Option Nat :=
  if base64Map.indexOf c < 64 then some (base64Map.indexOf c) else none

/-- Modelled from the spec: the repository is write-only and holds no decoder;
this is the decoding of standard base64 that the round-trip property of the
spec refers to. Four symbols give three bytes; `=` is accepted only as the last
or the last two characters of the final group, which then gives two bytes or
one; any other text is rejected. -/
def base64Decode : List Char → Option (List Byte)
  | [] => some []
  | c0 :: c1 :: c2 :: c3 :: rest =>
    match base64Index c0, base64Index c1 with
    | some i0, some i1 =>
      if c3 = '=' then
        if rest ≠ [] then none
        else if c2 = '=' then some [byteOf (i0 * 4 + i1 / 16)]
        else
          match base64Index c2 with
          | some i2 => some [byteOf (i0 * 4 + i1 / 16), byteOf (i1 % 16 * 16 + i2 / 4)]
          | none => none
      else
        match base64Index c2, base64Index c3, base64Decode rest with
        | some i2, some i3, some bytes =>
          some (byteOf (i0 * 4 + i1 / 16) :: byteOf (i1 % 16 * 16 + i2 / 4) ::
            byteOf (i2 % 4 * 64 + i3) :: bytes)
        | _, _, _ => none
    | _, _ => none
  | _ => none

/-! ## Attribute sets and decimal text -/

/-- The decimal digits of a natural number. -/
def decimal (n : Nat) : List Char := Nat.toDigits 10 n

/-- The decimal text of an integer, as `%d` and `operator<<` print it. -/
def decimalInt (v : Int) : List Char :=
  if v < 0 then '-' :: decimal v.natAbs else decimal v.natAbs

/-- The string `std::to_string( n )` of an unsigned value. -/
def to_string (n : Nat) : String := String.mk (decimal n)

/-- A `std::map<std::string, std::string>`, as the list of its entries; no key
occurs twice in a map built with `assign` from `empty`. -/
structure StringStringMap where
  entries : List (String × String)

/-- The map `{ }`. -/
def StringStringMap.empty : StringStringMap := ⟨[]⟩

/-- Replaces the value stored under `key`, or adds the entry when there is none. -/
def assignEntries (key value : String) : List (String × String) → List (String × String)
  | [] => [(key, value)]
  | e :: rest =>
    if e.1 = key then (key, value) :: rest else e :: assignEntries key value rest

/-- The map after `attributes[key] = value`. -/
def StringStringMap.assign (attributes : StringStringMap) (key value : String) :
    StringStringMap :=
  ⟨assignEntries key value attributes.entries⟩

/-- The value stored under `key`, when there is one. -/
def StringStringMap.find (attributes : StringStringMap) (key : String) : Option String :=
  (attributes.entries.find? (fun e => e.1 = key)).map Prod.snd

/-! ## Inline base64 writer -/

namespace Base64BinaryWriter

/-- The local `HeaderType numberOfBytes = data.size( ) * sizeof( T )`. -/
def numberOfBytes (t : Target) (data : TypedArray) : Nat :=
  toHeaderType t (data.size * data.elemSize)

/-- `Base64BinaryWriter::writeData`: the header is encoded by one call of the
codec (over the object representation of `numberOfBytes`), the elements by a
second call, and a newline follows. -/
def writeData (t : Target) (output : Sink) (data : TypedArray) : Sink :=
  let output := putStr output (base64Encode (headerBytes t (numberOfBytes t data)))
  let output := putStr output (base64Encode data.mem)
  putStr output ['\n']

/-- `Base64BinaryWriter::writeAppended`. -/
def writeAppended (output : Sink) : Sink := output

/-- `Base64BinaryWriter::addHeaderAttributes`; `headerTypeString` is
`dataTypeString<HeaderType>( )`. -/
def addHeaderAttributes (headerTypeString : String) (attributes : StringStringMap) :
    StringStringMap :=
  attributes.assign "header_type" headerTypeString

/-- `Base64BinaryWriter::addDataAttributes`. -/
def addDataAttributes (attributes : StringStringMap) : StringStringMap :=
  attributes.assign "format" "binary"

/-- `Base64BinaryWriter::appendedAttributes`. -/
def appendedAttributes : StringStringMap := StringStringMap.empty

end Base64BinaryWriter

/-! ## Appended base64 writer -/

/-- The state of a `Base64BinaryAppendedWriter`: each recorded pair holds the
bytes reachable from the stored pointer and the stored `HeaderType` length. -/
structure Base64BinaryAppendedWriter where
  appendedData : List (List Byte × Nat)
  offset : Nat

namespace Base64BinaryAppendedWriter

/-- Modelled from the spec: the constructor and member initialisers are in
`inc/writer.hpp`, which is not among the embedded files. A new writer has
recorded nothing and its offset is 0. -/
def fresh : Base64BinaryAppendedWriter := ⟨[], 0⟩

/-- `Base64BinaryAppendedWriter::writeData`: nothing is written; the pair
(pointer, `rawBytes`) is recorded and the offset advances by the encoded size
of header and payload. -/
def writeData (t : Target) (w : Base64BinaryAppendedWriter) (output : Sink)
    (data : TypedArray) : Base64BinaryAppendedWriter × Sink :=
  let rawBytes := toHeaderType t (data.size * data.elemSize)
  ({ appendedData := w.appendedData ++ [(data.mem, rawBytes)]
     offset := w.offset + encodedNumberOfBytes (rawBytes + t.headerSize) }, output)

/-- One iteration of the loop of `writeAppended`: a buffer of
`dataSet.second + sizeof( HeaderType )` bytes receives the header and then
`dataSet.second` bytes of the payload, and is encoded by one call of the codec. -/
def writeDataSet (t : Target) (output : Sink) (dataSet : List Byte × Nat) : Sink :=
  let data := headerBytes t dataSet.2 ++ dataSet.1.take dataSet.2
  putStr output (base64Encode data)

/-- `Base64BinaryAppendedWriter::writeAppended`. -/
def writeAppended (t : Target) (w : Base64BinaryAppendedWriter) (output : Sink) : Sink :=
  putStr (w.appendedData.foldl (writeDataSet t) output) ['\n']

/-- `Base64BinaryAppendedWriter::addHeaderAttributes`; `headerTypeString` is
`dataTypeString<HeaderType>( )`. -/
def addHeaderAttributes (headerTypeString : String) (attributes : StringStringMap) :
    StringStringMap :=
  attributes.assign "header_type" headerTypeString

/-- `Base64BinaryAppendedWriter::addDataAttributes`. -/
def addDataAttributes (w : Base64BinaryAppendedWriter) (attributes : StringStringMap) :
    StringStringMap :=
  (attributes.assign "format" "appended").assign "offset" (to_string w.offset)

/-- `Base64BinaryAppendedWriter::appendedAttributes`. -/
def appendedAttributes : StringStringMap :=
  ⟨[("encoding", "base64")]⟩

/-- The caller's loop: `writeData` for each array of the list, in order. -/
def writeAll (t : Target) (w : Base64BinaryAppendedWriter) (output : Sink) :
    List TypedArray → Base64BinaryAppendedWriter × Sink
  | [] => (w, output)
  | data :: rest =>
    writeAll t (writeData t w output data).1 (writeData t w output data).2 rest

end Base64BinaryAppendedWriter

/-! ## Appended raw writer -/

/-- The state of a `RawBinaryAppendedWriter`, as for the base64 variant. -/
structure RawBinaryAppendedWriter where
  appendedData : List (List Byte × Nat)
  offset : Nat

namespace RawBinaryAppendedWriter

/-- Modelled from the spec: the constructor and member initialisers are in
`inc/writer.hpp`, which is not among the embedded files. A new writer has
recorded nothing and its offset is 0. -/
def fresh : RawBinaryAppendedWriter := ⟨[], 0⟩

/-- `RawBinaryAppendedWriter::writeData`: nothing is written; the pair
(pointer, `rawBytes`) is recorded and the offset advances by the size of the
header plus `rawBytes`. -/
def writeData (t : Target) (w : RawBinaryAppendedWriter) (output : Sink)
    (data : TypedArray) : RawBinaryAppendedWriter × Sink :=
  let rawBytes := toHeaderType t (data.size * data.elemSize)
  ({ appendedData := w.appendedData ++ [(data.mem, rawBytes)]
     offset := w.offset + (t.headerSize + rawBytes) }, output)

/-- One iteration of the outer loop of `writeAppended`: the bytes of
`dataSet.second`, then `dataSet.second` bytes from `dataSet.first`. -/
def writeDataSet (t : Target) (output : Sink) (dataSet : List Byte × Nat) : Sink :=
  let output := putBytes output (headerBytes t dataSet.2)
  putBytes output (dataSet.1.take dataSet.2)

/-- `RawBinaryAppendedWriter::writeAppended`. -/
def writeAppended (t : Target) (w : RawBinaryAppendedWriter) (output : Sink) : Sink :=
  putStr (w.appendedData.foldl (writeDataSet t) output) ['\n']

/-- `RawBinaryAppendedWriter::addHeaderAttributes`; `headerTypeString` is
`dataTypeString<HeaderType>( )`. -/
def addHeaderAttributes (headerTypeString : String) (attributes : StringStringMap) :
    StringStringMap :=
  attributes.assign "header_type" headerTypeString

/-- `RawBinaryAppendedWriter::addDataAttributes`. -/
def addDataAttributes (w : RawBinaryAppendedWriter) (attributes : StringStringMap) :
    StringStringMap :=
  (attributes.assign "format" "appended").assign "offset" (to_string w.offset)

/-- `RawBinaryAppendedWriter::appendedAttributes`. -/
def appendedAttributes : StringStringMap :=
  ⟨[("encoding", "raw")]⟩

/-- The caller's loop: `writeData` for each array of the list, in order. -/
def writeAll (t : Target) (w : RawBinaryAppendedWriter) (output : Sink) :
    List TypedArray → RawBinaryAppendedWriter × Sink
  | [] => (w, output)
  | data :: rest =>
    writeAll t (writeData t w output data).1 (writeData t w output data).2 rest

end RawBinaryAppendedWriter

/-! ## Plain-text writer -/

/-- The integer element types for which `detail::formatStr` is specialised. -/
inductive IntegerType
  | longLongInt | longInt | int | short | char
  | unsignedLongLongInt | unsignedLongInt | unsignedInt | unsignedShort | unsignedChar
  deriving DecidableEq

/-- The width in bits of an integer element type (LP64: `long` has 64 bits). -/
def IntegerType.bits : IntegerType → Nat
  | .longLongInt | .unsignedLongLongInt | .longInt | .unsignedLongInt => 64
  | .int | .unsignedInt => 32
  | .short | .unsignedShort => 16
  | .char | .unsignedChar => 8

/-- Whether the element type is signed (`char` is taken to be signed). -/
def IntegerType.isSigned : IntegerType → Bool
  | .longLongInt | .longInt | .int | .short | .char => true
  | _ => false

/-- The value is representable in the element type. -/
def IntegerType.Holds (T : IntegerType) (value : Int) : Prop :=
  if T.isSigned then -(2 : Int) ^ (T.bits - 1) ≤ value ∧ value < 2 ^ (T.bits - 1)
  else 0 ≤ value ∧ value < 2 ^ T.bits

instance (T : IntegerType) (value : Int) : Decidable (T.Holds value) := by
  unfold IntegerType.Holds; infer_instance

namespace detail

/-- `detail::formatStr<T>( )` for the integer element types. -/
def formatStr : IntegerType → String
  | .longLongInt => "%lld"
  | .longInt => "%ld"
  | .int => "%d"
  | .short => "%hd"
  | .char => "%hhd"
  | .unsignedLongLongInt => "%llu"
  | .unsignedLongInt => "%ld"
  | .unsignedInt => "%d"
  | .unsignedShort => "%hd"
  | .unsignedChar => "%hhd"

end detail

/-- The value of the low `bits` bits of `v` read as a two's-complement number. -/
def toSigned (bits : Nat) (v : Int) : Int :=
  if v % 2 ^ bits < 2 ^ (bits - 1) then v % 2 ^ bits else v % 2 ^ bits - 2 ^ bits

/-- The value of the low `bits` bits of `v` read as an unsigned number. -/
def toUnsigned (bits : Nat) (v : Int) : Int := v % 2 ^ bits

/-- The number a conversion specification prints for the argument `value`: the
argument is read as the type the specification names (`d` signed, `u` unsigned;
`hh` 8 bits, `h` 16, none 32, `l` and `ll` 64). -/
def convert (format : String) (value : Int) : Int :=
  if format = "%lld" then toSigned 64 value
  else if format = "%ld" then toSigned 64 value
  else if format = "%d" then toSigned 32 value
  else if format = "%hd" then toSigned 16 value
  else if format = "%hhd" then toSigned 8 value
  else if format = "%llu" then toUnsigned 64 value
  else value

/-- The C string `std::snprintf( buffer, size, format, value )` leaves in
`buffer`: at most `size - 1` characters of the decimal text. -/
def snprintf (size : Nat) (format : String) (value : Int) : List Char :=
  (decimalInt (convert format value)).take (size - 1)

/-- A `std::int8_t`. -/
structure Int8 where
  val : Int
  lo : -128 ≤ val
  hi : val ≤ 127

/-- The conversion `static_cast<int>( value )` of a `std::int8_t`, which keeps the value. -/
def static_cast_int (value : Int8) : Int := value.val

namespace AsciiWriter

/-- The body of the loop of the primary template of `writeData`. -/
def writeValue (T : IntegerType) (output : Sink) (value : Int) : Sink :=
  let buffer := snprintf 64 (detail.formatStr T) value
  putStr (putStr output buffer) [' ']

/-- `AsciiWriter::writeData<T>`, primary template, for an integer type `T`. -/
def writeData (T : IntegerType) (output : Sink) (data : List Int) : Sink :=
  putStr (data.foldl (writeValue T) output) ['\n']

/-- The body of the loop of the specialisation for `std::int8_t`: `operator<<`
for an `int` prints its decimal text (the stream has its default format flags). -/
def writeValue_int8 (output : Sink) (value : Int8) : Sink :=
  putStr (putStr output (decimalInt (static_cast_int value))) [' ']

/-- `AsciiWriter::writeData<std::int8_t>`, the explicit specialisation. -/
def writeData_int8 (output : Sink) (data : List Int8) : Sink :=
  putStr (data.foldl writeValue_int8 output) ['\n']

/-- `AsciiWriter::writeAppended`. -/
def writeAppended (output : Sink) : Sink := output

/-- `AsciiWriter::addHeaderAttributes`. -/
def addHeaderAttributes (attributes : StringStringMap) : StringStringMap := attributes

/-- `AsciiWriter::addDataAttributes`. -/
def addDataAttributes (attributes : StringStringMap) : StringStringMap :=
  attributes.assign "format" "ascii"

/-- `AsciiWriter::appendedAttributes`. -/
def appendedAttributes : StringStringMap := StringStringMap.empty

end AsciiWriter

/-! ## The contract of `operator[]`

`data[ index ]` on a `std::vector` is defined only for `index` smaller than
`data.size( )`. The functions below are the deferred writers with this
condition made explicit at each place where the source indexes a vector; `none`
stands for an access outside the contract, whose behaviour is undefined. -/

/-- `Base64BinaryAppendedWriter::writeData` with the contract of `&data[0]`
(line 129): the vector must hold an element. -/
def Base64BinaryAppendedWriter.writeDataChecked (t : Target) (w : Base64BinaryAppendedWriter)
    (output : Sink) (data : TypedArray) : Option (Base64BinaryAppendedWriter × Sink) :=
  if 0 < data.size then some (Base64BinaryAppendedWriter.writeData t w output data) else none

/-- One iteration of the loop of `Base64BinaryAppendedWriter::writeAppended`
with the contract of `&data[0]` (line 141) and `&data[ sizeof( HeaderType ) ]`
(line 143), where the buffer `data` holds `dataSet.second + sizeof( HeaderType )`
elements. -/
def Base64BinaryAppendedWriter.writeDataSetChecked (t : Target) (output : Sink)
    (dataSet : List Byte × Nat) : Option Sink :=
  if 0 < dataSet.2 + t.headerSize ∧ t.headerSize < dataSet.2 + t.headerSize then
    some (Base64BinaryAppendedWriter.writeDataSet t output dataSet)
  else none

/-- `RawBinaryAppendedWriter::writeData` with the contract of `&data[0]`
(line 175): the vector must hold an element. -/
def RawBinaryAppendedWriter.writeDataChecked (t : Target) (w : RawBinaryAppendedWriter)
    (output : Sink) (data : TypedArray) : Option (RawBinaryAppendedWriter × Sink) :=
  if 0 < data.size then some (RawBinaryAppendedWriter.writeData t w output data) else none

/-! ## Vocabulary of the statements -/

/-- The pair `writeData` records for an array. -/
def recorded (t : Target) (a : TypedArray) : List Byte × Nat :=
  (a.mem, toHeaderType t (a.size * a.elemSize))

/-- The characters one recorded pair contributes to the base64 trailing section. -/
def Base64BinaryAppendedWriter.unit (t : Target) (dataSet : List Byte × Nat) : List Char :=
  base64Encode (headerBytes t dataSet.2 ++ dataSet.1.take dataSet.2)

/-- The bytes one recorded pair contributes to the raw trailing section. -/
def RawBinaryAppendedWriter.unit (t : Target) (dataSet : List Byte × Nat) : List Byte :=
  headerBytes t dataSet.2 ++ dataSet.1.take dataSet.2

/-- The stream bytes `RawBinaryAppendedWriter::writeAppended` emits for an
array that was registered: those of the pair recorded for it. -/
def rawUnit (t : Target) (a : TypedArray) : List Byte :=
  RawBinaryAppendedWriter.unit t (recorded t a)

/-- The stream bytes `Base64BinaryAppendedWriter::writeAppended` emits for an
array that was registered: those of the pair recorded for it. -/
def base64Unit (t : Target) (a : TypedArray) : List Byte :=
  textBytes (Base64BinaryAppendedWriter.unit t (recorded t a))

/-- The writer after the arrays have been registered, in order, on a fresh instance. -/
def Base64BinaryAppendedWriter.registered (t : Target) (sink : Sink)
    (arrays : List TypedArray) : Base64BinaryAppendedWriter :=
  (Base64BinaryAppendedWriter.writeAll t Base64BinaryAppendedWriter.fresh sink arrays).1

/-- The writer after the arrays have been registered, in order, on a fresh instance. -/
def RawBinaryAppendedWriter.registered (t : Target) (sink : Sink)
    (arrays : List TypedArray) : RawBinaryAppendedWriter :=
  (RawBinaryAppendedWriter.writeAll t RawBinaryAppendedWriter.fresh sink arrays).1

/-! ## Sample data -/

/-- A little-endian build with an eight-byte `HeaderType`. -/
def target64 : Target := ⟨8, false, by decide⟩

/-- A big-endian build with a four-byte `HeaderType`. -/
def target32 : Target := ⟨4, true, by decide⟩

/-- One element of one byte. -/
def arrayA : TypedArray := ⟨1, 1, [1], rfl⟩

/-- Two elements of two bytes. -/
def arrayB : TypedArray := ⟨2, 2, [0x4D, 0x61, 0x6E, 0x00], rfl⟩

/-- No element. -/
def arrayEmpty : TypedArray := ⟨4, 0, [], rfl⟩

/-- A build with a one-byte `HeaderType`. -/
def target8 : Target := ⟨1, false, by decide⟩

/-- 258 elements of one byte: more bytes than a one-byte `HeaderType` can count. -/
def arrayWide : TypedArray := ⟨1, 258, List.replicate 258 0, List.length_replicate 258 0⟩

/-- 129 elements of two bytes, 258 bytes in all. -/
def arrayWidePairs : TypedArray :=
  ⟨2, 129, List.replicate 258 0, List.length_replicate 258 0⟩

/-- An attribute set that already holds a name and a stale offset. -/
def sampleAttributes : StringStringMap := ⟨[("Name", "Points"), ("offset", "7")]⟩

/-! ## Auxiliary facts -/

theorem textBytes_append (s u : List Char) :
    textBytes (s ++ u) = textBytes s ++ textBytes u := by
  simp [textBytes]

theorem textBytes_length (s : List Char) : (textBytes s).length = s.length := by
  simp [textBytes]

theorem textBytes_flatten (l : List (List Char)) :
    textBytes l.flatten = (l.map textBytes).flatten := by
  induction l with
  | nil => rfl
  | cons x xs ih => simp [textBytes_append, ih]

theorem leBytes_length (k v : Nat) : (leBytes k v).length = k := by
  induction k generalizing v with
  | zero => rfl
  | succ k ih => simp [leBytes, ih]

theorem headerBytes_length (t : Target) (v : Nat) : (headerBytes t v).length = t.headerSize := by
  unfold headerBytes
  split <;> simp [leBytes_length]

theorem base64Encode_length_aux (n : Nat) :
    ∀ l : List Byte, l.length ≤ n → (base64Encode l).length = encodedNumberOfBytes l.length := by
  induction n using Nat.strong_induction_on with
  | _ n ih =>
    intro l hl
    match l, hl with
    | [], _ => rfl
    | [_], _ => simp [base64Encode, encodedNumberOfBytes]
    | [_, _], _ => simp [base64Encode, encodedNumberOfBytes]
    | a :: b :: c :: rest, hl =>
      have hlt : rest.length < n := by simp at hl; omega
      have h := ih rest.length hlt rest (le_refl _)
      simp only [base64Encode, List.length_cons, h, encodedNumberOfBytes]
      omega

/-- The codec produces `encodedNumberOfBytes` characters. -/
theorem base64Encode_length (l : List Byte) :
    (base64Encode l).length = encodedNumberOfBytes l.length :=
  base64Encode_length_aux l.length l (le_refl _)

theorem toHeaderType_of_fits {t : Target} {a : TypedArray} (h : a.Fits t) :
    toHeaderType t (a.size * a.elemSize) = a.byteCount := by
  unfold toHeaderType
  exact Nat.mod_eq_of_lt h

theorem take_byteCount (a : TypedArray) : a.mem.take a.byteCount = a.mem := by
  apply List.take_of_length_le
  rw [a.wf]
  exact le_refl _

theorem recorded_of_fits {t : Target} {a : TypedArray} (h : a.Fits t) :
    recorded t a = (a.mem, a.byteCount) := by
  simp [recorded, toHeaderType_of_fits h]

theorem map_recorded_of_fits {t : Target} {arrays : List TypedArray}
    (h : ∀ a ∈ arrays, a.Fits t) :
    arrays.map (recorded t) = arrays.map (fun a => (a.mem, a.byteCount)) := by
  apply List.map_congr_left
  intro a ha
  exact recorded_of_fits (h a ha)

theorem base64_foldl_writeDataSet (t : Target) (l : List (List Byte × Nat)) (output : Sink) :
    l.foldl (Base64BinaryAppendedWriter.writeDataSet t) output = output ++ textBytes (l.map (Base64BinaryAppendedWriter.unit t)).flatten := by
  induction l generalizing output with
  | nil => simp [textBytes]
  | cons x xs ih =>
    simp [ih, Base64BinaryAppendedWriter.writeDataSet, putStr, Base64BinaryAppendedWriter.unit, textBytes_append, List.append_assoc]

theorem base64_writeAll_spec (t : Target) (arrays : List TypedArray) (w : Base64BinaryAppendedWriter)
    (output : Sink) :
    Base64BinaryAppendedWriter.writeAll t w output arrays =
      ({ appendedData := w.appendedData ++ arrays.map (recorded t)
         offset := w.offset +
           (arrays.map (fun a => encodedNumberOfBytes
             (toHeaderType t (a.size * a.elemSize) + t.headerSize))).sum }, output) := by
  induction arrays generalizing w output with
  | nil => simp [Base64BinaryAppendedWriter.writeAll]
  | cons a rest ih =>
    simp [Base64BinaryAppendedWriter.writeAll, ih, Base64BinaryAppendedWriter.writeData, recorded,
      Nat.add_assoc]

theorem raw_foldl_writeDataSet (t : Target) (l : List (List Byte × Nat)) (output : Sink) :
    l.foldl (RawBinaryAppendedWriter.writeDataSet t) output = output ++ (l.map (RawBinaryAppendedWriter.unit t)).flatten := by
  induction l generalizing output with
  | nil => simp
  | cons x xs ih =>
    simp [ih, RawBinaryAppendedWriter.writeDataSet, putBytes, RawBinaryAppendedWriter.unit, List.append_assoc]

theorem raw_writeAll_spec (t : Target) (arrays : List TypedArray) (w : RawBinaryAppendedWriter)
    (output : Sink) :
    RawBinaryAppendedWriter.writeAll t w output arrays =
      ({ appendedData := w.appendedData ++ arrays.map (recorded t)
         offset := w.offset +
           (arrays.map (fun a => t.headerSize + toHeaderType t (a.size * a.elemSize))).sum },
        output) := by
  induction arrays generalizing w output with
  | nil => simp [RawBinaryAppendedWriter.writeAll]
  | cons a rest ih =>
    simp [RawBinaryAppendedWriter.writeAll, ih, RawBinaryAppendedWriter.writeData, recorded,
      Nat.add_assoc]

/-! ### Positions inside a concatenation of units -/

theorem take_flatten_units {β : Type} (units : List (List β)) (tail : List β) (i : Nat) :
    (units.flatten ++ tail).take (units.take i).flatten.length = (units.take i).flatten := by
  have h : units.flatten = (units.take i).flatten ++ (units.drop i).flatten := by
    rw [← List.flatten_append, List.take_append_drop]
  rw [h, List.append_assoc]
  exact List.take_left _ _

theorem drop_flatten_units {β : Type} (units : List (List β)) (tail : List β) (i : Nat) :
    (units.flatten ++ tail).drop (units.take i).flatten.length =
      (units.drop i).flatten ++ tail := by
  have h : units.flatten = (units.take i).flatten ++ (units.drop i).flatten := by
    rw [← List.flatten_append, List.take_append_drop]
  rw [h, List.append_assoc]
  exact List.drop_left _ _

theorem unit_at_offset {β : Type} (units : List (List β)) (tail : List β) (i : Nat)
    (u : List β) (hu : units[i]? = some u) :
    u <+: (units.flatten ++ tail).drop (units.take i).flatten.length := by
  rw [drop_flatten_units]
  obtain ⟨h, rfl⟩ := List.getElem?_eq_some.mp hu
  rw [List.drop_eq_getElem_cons h, List.flatten_cons, List.append_assoc]
  exact List.prefix_append _ _

theorem find_assign (attributes : StringStringMap) (key value : String) :
    (attributes.assign key value).find key = some value := by
  obtain ⟨entries⟩ := attributes
  simp only [StringStringMap.assign, StringStringMap.find]
  induction entries with
  | nil => simp [assignEntries]
  | cons e rest ih =>
    unfold assignEntries
    by_cases h : e.1 = key
    · simp [h]
    · simp only [h, if_false]
      rw [List.find?_cons_of_neg _ (by simpa using h)]
      exact ih

theorem ceil_third (n : ℕ) : ⌈(n : ℚ) / 3⌉₊ = (n + 2) / 3 := by
  rcases Nat.eq_zero_or_pos n with h | h
  · subst h; simp
  · have hne : (n + 2) / 3 ≠ 0 := by omega
    rw [Nat.ceil_eq_iff hne]
    constructor
    · rw [lt_div_iff₀ (by norm_num : (0 : ℚ) < 3)]
      have h1 : ((n + 2) / 3 - 1) * 3 < n := by omega
      exact_mod_cast h1
    · rw [div_le_iff₀ (by norm_num : (0 : ℚ) < 3)]
      have h2 : n ≤ (n + 2) / 3 * 3 := by omega
      exact_mod_cast h2

theorem toHeaderType_le (t : Target) (a : TypedArray) :
    toHeaderType t (a.size * a.elemSize) ≤ a.mem.length := by
  rw [a.wf]
  exact Nat.mod_le _ _

theorem rawUnit_length (t : Target) (a : TypedArray) :
    (rawUnit t a).length = t.headerSize + toHeaderType t (a.size * a.elemSize) := by
  have h := toHeaderType_le t a
  simp [rawUnit, RawBinaryAppendedWriter.unit, recorded, headerBytes_length, h]

theorem base64Unit_length (t : Target) (a : TypedArray) :
    (base64Unit t a).length =
      encodedNumberOfBytes (toHeaderType t (a.size * a.elemSize) + t.headerSize) := by
  have h := toHeaderType_le t a
  simp [base64Unit, Base64BinaryAppendedWriter.unit, recorded, textBytes_length,
    base64Encode_length, headerBytes_length, h, Nat.add_comm]

theorem rawUnit_of_fits {t : Target} {a : TypedArray} (h : a.Fits t) :
    rawUnit t a = headerBytes t a.byteCount ++ a.mem := by
  simp [rawUnit, RawBinaryAppendedWriter.unit, recorded_of_fits h, take_byteCount]

theorem base64Unit_of_fits {t : Target} {a : TypedArray} (h : a.Fits t) :
    base64Unit t a = textBytes (base64Encode (headerBytes t a.byteCount ++ a.mem)) := by
  simp [base64Unit, Base64BinaryAppendedWriter.unit, recorded_of_fits h, take_byteCount]

theorem map_offsets_of_fits {t : Target} {arrays : List TypedArray} (f : Nat → Nat)
    (h : ∀ a ∈ arrays, a.Fits t) :
    arrays.map (fun a => f (toHeaderType t (a.size * a.elemSize))) =
      arrays.map (fun a => f a.byteCount) := by
  apply List.map_congr_left
  intro a ha
  rw [toHeaderType_of_fits (h a ha)]

theorem fits_take {t : Target} {arrays : List TypedArray} (h : ∀ a ∈ arrays, a.Fits t)
    (i : Nat) : ∀ a ∈ arrays.take i, a.Fits t :=
  fun a ha => h a (List.mem_of_mem_take ha)

theorem base64_section_eq (t : Target) (arrays : List TypedArray) (sink output : Sink) :
    Base64BinaryAppendedWriter.writeAppended t
        (Base64BinaryAppendedWriter.writeAll t Base64BinaryAppendedWriter.fresh sink arrays).1
        output =
      output ++ ((arrays.map (base64Unit t)).flatten ++ textBytes ['\n']) := by
  rw [base64_writeAll_spec]
  simp only [Base64BinaryAppendedWriter.writeAppended, Base64BinaryAppendedWriter.fresh,
    List.nil_append, base64_foldl_writeDataSet, putStr, List.map_map, textBytes_flatten,
    List.append_assoc]
  rfl

theorem raw_section_eq (t : Target) (arrays : List TypedArray) (sink output : Sink) :
    RawBinaryAppendedWriter.writeAppended t
        (RawBinaryAppendedWriter.writeAll t RawBinaryAppendedWriter.fresh sink arrays).1
        output =
      output ++ ((arrays.map (rawUnit t)).flatten ++ textBytes ['\n']) := by
  rw [raw_writeAll_spec]
  simp only [RawBinaryAppendedWriter.writeAppended, RawBinaryAppendedWriter.fresh,
    List.nil_append, raw_foldl_writeDataSet, putStr, List.map_map, List.append_assoc]
  rfl

theorem base64_offset_eq (t : Target) (arrays : List TypedArray) (sink : Sink)
    (hfit : ∀ a ∈ arrays, a.Fits t) :
    (Base64BinaryAppendedWriter.writeAll t Base64BinaryAppendedWriter.fresh sink arrays).1.offset =
      (arrays.map (fun a => encodedNumberOfBytes (a.byteCount + t.headerSize))).sum := by
  rw [base64_writeAll_spec]
  simp only [Base64BinaryAppendedWriter.fresh, Nat.zero_add]
  rw [map_offsets_of_fits (fun n => encodedNumberOfBytes (n + t.headerSize)) hfit]

theorem raw_offset_eq (t : Target) (arrays : List TypedArray) (sink : Sink)
    (hfit : ∀ a ∈ arrays, a.Fits t) :
    (RawBinaryAppendedWriter.writeAll t RawBinaryAppendedWriter.fresh sink arrays).1.offset =
      (arrays.map (fun a => t.headerSize + a.byteCount)).sum := by
  rw [raw_writeAll_spec]
  simp only [RawBinaryAppendedWriter.fresh, Nat.zero_add]
  rw [map_offsets_of_fits (fun n => t.headerSize + n) hfit]

theorem base64_offset_length (t : Target) (arrays : List TypedArray) (sink : Sink) :
    (Base64BinaryAppendedWriter.writeAll t Base64BinaryAppendedWriter.fresh sink arrays).1.offset =
      (arrays.map (base64Unit t)).flatten.length := by
  rw [base64_writeAll_spec, List.length_flatten, List.map_map]
  simp only [Base64BinaryAppendedWriter.fresh, Nat.zero_add]
  congr 1
  apply List.map_congr_left
  intro a _
  simp [base64Unit_length]

theorem raw_offset_length (t : Target) (arrays : List TypedArray) (sink : Sink) :
    (RawBinaryAppendedWriter.writeAll t RawBinaryAppendedWriter.fresh sink arrays).1.offset =
      (arrays.map (rawUnit t)).flatten.length := by
  rw [raw_writeAll_spec, List.length_flatten, List.map_map]
  simp only [RawBinaryAppendedWriter.fresh, Nat.zero_add]
  congr 1
  apply List.map_congr_left
  intro a _
  simp [rawUnit_length]

/-! ## The trailing section -/

/-- C1. For every list of arrays registered in order on a fresh
`Base64BinaryAppendedWriter`, `writeAppended` appends to the stream exactly,
per recorded pair and in registration order, the output of one codec call over
the bytes of the recorded length followed by that many payload bytes, then one
newline and nothing else. When the byte counts are representable in
`HeaderType`, the recorded length is the byte count of the array and the
payload is all of its bytes. -/
theorem base64_appended_section (t : Target) (arrays : List TypedArray) (sink output : Sink) :
    Base64BinaryAppendedWriter.writeAppended t
        (Base64BinaryAppendedWriter.writeAll t Base64BinaryAppendedWriter.fresh sink arrays).1
        output =
      output ++
        textBytes ((arrays.map (fun a =>
          base64Encode (headerBytes t (recorded t a).2 ++
            (recorded t a).1.take (recorded t a).2))).flatten ++ ['\n']) ∧
    ((∀ a ∈ arrays, a.Fits t) →
      Base64BinaryAppendedWriter.writeAppended t
          (Base64BinaryAppendedWriter.writeAll t Base64BinaryAppendedWriter.fresh sink arrays).1
          output =
        output ++
          textBytes ((arrays.map (fun a =>
            base64Encode (headerBytes t a.byteCount ++ a.mem))).flatten ++ ['\n'])) := by
  have hgen : Base64BinaryAppendedWriter.writeAppended t
        (Base64BinaryAppendedWriter.writeAll t Base64BinaryAppendedWriter.fresh sink arrays).1
        output =
      output ++
        textBytes ((arrays.map (fun a =>
          base64Encode (headerBytes t (recorded t a).2 ++
            (recorded t a).1.take (recorded t a).2))).flatten ++ ['\n']) := by
    rw [base64_writeAll_spec]
    simp only [Base64BinaryAppendedWriter.writeAppended, Base64BinaryAppendedWriter.fresh,
      List.nil_append, base64_foldl_writeDataSet, putStr, List.map_map, textBytes_append,
      List.append_assoc]
    rfl
  refine ⟨hgen, fun hfit => ?_⟩
  rw [hgen]
  congr 4
  apply List.map_congr_left
  intro a ha
  simp [recorded_of_fits (hfit a ha), take_byteCount]

/-- C1, at a concrete input: three arrays (one of them empty) on an eight-byte
little-endian header. -/
theorem base64_appended_section_witness :
    (∀ a ∈ [arrayA, arrayB, arrayEmpty], a.Fits target64) ∧
    Base64BinaryAppendedWriter.writeAppended target64
        (Base64BinaryAppendedWriter.writeAll target64 Base64BinaryAppendedWriter.fresh []
          [arrayA, arrayB, arrayEmpty]).1 [] =
      textBytes "AQAAAAAAAAABBAAAAAAAAABNYW4AAAAAAAAAAAA=\n".toList :=
  ⟨by decide,
   ((base64_appended_section target64 [arrayA, arrayB, arrayEmpty] [] []).2 (by decide)).trans
     (by decide)⟩

/-- C2. For every list of arrays registered in order on a fresh
`RawBinaryAppendedWriter`, `writeAppended` appends to the stream exactly, per
recorded pair and in registration order, the bytes of the recorded length
followed by that many payload bytes, with nothing in between, and then one
newline. When the byte counts are representable in `HeaderType`, the recorded
length is the byte count of the array and the payload is all of its bytes. -/
theorem raw_appended_section (t : Target) (arrays : List TypedArray) (sink output : Sink) :
    RawBinaryAppendedWriter.writeAppended t
        (RawBinaryAppendedWriter.writeAll t RawBinaryAppendedWriter.fresh sink arrays).1
        output =
      output ++ (arrays.map (fun a =>
          headerBytes t (recorded t a).2 ++ (recorded t a).1.take (recorded t a).2)).flatten ++
        [charByte '\n'] ∧
    ((∀ a ∈ arrays, a.Fits t) →
      RawBinaryAppendedWriter.writeAppended t
          (RawBinaryAppendedWriter.writeAll t RawBinaryAppendedWriter.fresh sink arrays).1
          output =
        output ++ (arrays.map (fun a => headerBytes t a.byteCount ++ a.mem)).flatten ++
          [charByte '\n']) := by
  have hgen : RawBinaryAppendedWriter.writeAppended t
        (RawBinaryAppendedWriter.writeAll t RawBinaryAppendedWriter.fresh sink arrays).1
        output =
      output ++ (arrays.map (fun a =>
          headerBytes t (recorded t a).2 ++ (recorded t a).1.take (recorded t a).2)).flatten ++
        [charByte '\n'] := by
    rw [raw_section_eq t arrays sink output, List.append_assoc]
    rfl
  refine ⟨hgen, fun hfit => ?_⟩
  rw [hgen]
  congr 3
  apply List.map_congr_left
  intro a ha
  simp [recorded_of_fits (hfit a ha), take_byteCount]

/-- C2, at a concrete input: three arrays (one of them empty) on a four-byte
big-endian header, written behind the two bytes the stream already holds. -/
theorem raw_appended_section_witness :
    (∀ a ∈ [arrayA, arrayB, arrayEmpty], a.Fits target32) ∧
    RawBinaryAppendedWriter.writeAppended target32
        (RawBinaryAppendedWriter.writeAll target32 RawBinaryAppendedWriter.fresh []
          [arrayA, arrayB, arrayEmpty]).1 [95, 10] =
      [95, 10, 0, 0, 0, 1, 1, 0, 0, 0, 4, 77, 97, 110, 0, 0, 0, 0, 0, 10] :=
  ⟨by decide,
   ((raw_appended_section target32 [arrayA, arrayB, arrayEmpty] [] [95, 10]).2
      (by decide)).trans (by decide)⟩

/-! ## Offsets -/

/-- C3. For both appended writers, for every list of arrays registered on a
fresh instance and every index `i`: the offset that `addDataAttributes` reports
just before array `i` is registered is the number of stream bytes
`writeAppended` later emits for arrays `0..i-1`; those bytes are the first ones
of the trailing section, the unit (header and payload) of array `i` starts
right at that position, and the whole output is as long as the final offset
plus one, the newline. The unit of an array whose byte count is representable
in `HeaderType` is the header holding that count followed by all its bytes
(raw), or the codec output of these (base64). The base64 half rests on the
codec producing `encodedNumberOfBytes` characters, the last part of the
statement. -/
theorem offset_section_consistency (t : Target) (arrays : List TypedArray) (sink output : Sink)
    (attributes : StringStringMap) (i : Nat) :
    ((Base64BinaryAppendedWriter.addDataAttributes
          (Base64BinaryAppendedWriter.registered t sink (arrays.take i)) attributes).find "offset" =
        some (to_string (Base64BinaryAppendedWriter.registered t sink (arrays.take i)).offset) ∧
      (Base64BinaryAppendedWriter.registered t sink (arrays.take i)).offset =
        ((arrays.take i).map (base64Unit t)).flatten.length ∧
      (Base64BinaryAppendedWriter.writeAppended t
          (Base64BinaryAppendedWriter.registered t sink arrays) output).take
          (output.length + (Base64BinaryAppendedWriter.registered t sink (arrays.take i)).offset) =
        output ++ ((arrays.take i).map (base64Unit t)).flatten ∧
      (∀ a, arrays[i]? = some a →
        base64Unit t a <+:
          (Base64BinaryAppendedWriter.writeAppended t
            (Base64BinaryAppendedWriter.registered t sink arrays) output).drop
            (output.length +
              (Base64BinaryAppendedWriter.registered t sink (arrays.take i)).offset)) ∧
      (Base64BinaryAppendedWriter.writeAppended t
          (Base64BinaryAppendedWriter.registered t sink arrays) output).length =
        output.length + (Base64BinaryAppendedWriter.registered t sink arrays).offset + 1) ∧
    ((RawBinaryAppendedWriter.addDataAttributes
          (RawBinaryAppendedWriter.registered t sink (arrays.take i)) attributes).find "offset" =
        some (to_string (RawBinaryAppendedWriter.registered t sink (arrays.take i)).offset) ∧
      (RawBinaryAppendedWriter.registered t sink (arrays.take i)).offset =
        ((arrays.take i).map (rawUnit t)).flatten.length ∧
      (RawBinaryAppendedWriter.writeAppended t
          (RawBinaryAppendedWriter.registered t sink arrays) output).take
          (output.length + (RawBinaryAppendedWriter.registered t sink (arrays.take i)).offset) =
        output ++ ((arrays.take i).map (rawUnit t)).flatten ∧
      (∀ a, arrays[i]? = some a →
        rawUnit t a <+:
          (RawBinaryAppendedWriter.writeAppended t
            (RawBinaryAppendedWriter.registered t sink arrays) output).drop
            (output.length +
              (RawBinaryAppendedWriter.registered t sink (arrays.take i)).offset)) ∧
      (RawBinaryAppendedWriter.writeAppended t
          (RawBinaryAppendedWriter.registered t sink arrays) output).length =
        output.length + (RawBinaryAppendedWriter.registered t sink arrays).offset + 1) ∧
    (∀ a : TypedArray, a.Fits t →
      base64Unit t a = textBytes (base64Encode (headerBytes t a.byteCount ++ a.mem)) ∧
      rawUnit t a = headerBytes t a.byteCount ++ a.mem) ∧
    (∀ b : List Byte, (base64Encode b).length = encodedNumberOfBytes b.length) := by
  refine ⟨?_, ?_, fun a h => ⟨base64Unit_of_fits h, rawUnit_of_fits h⟩, base64Encode_length⟩
  · have hoff := base64_offset_length t (arrays.take i) sink
    have hsec := base64_section_eq t arrays sink output
    simp only [Base64BinaryAppendedWriter.registered] at *
    refine ⟨find_assign _ _ _, hoff, ?_, ?_, ?_⟩
    · rw [hsec, hoff, List.take_append, List.map_take, take_flatten_units]
    · intro a ha
      rw [hsec, hoff, List.drop_append, List.map_take]
      exact unit_at_offset _ _ i _ (by simp [ha])
    · rw [hsec, base64_offset_length t arrays sink]
      simp [textBytes, Nat.add_assoc]
  · have hoff := raw_offset_length t (arrays.take i) sink
    have hsec := raw_section_eq t arrays sink output
    simp only [RawBinaryAppendedWriter.registered] at *
    refine ⟨find_assign _ _ _, hoff, ?_, ?_, ?_⟩
    · rw [hsec, hoff, List.take_append, List.map_take, take_flatten_units]
    · intro a ha
      rw [hsec, hoff, List.drop_append, List.map_take]
      exact unit_at_offset _ _ i _ (by simp [ha])
    · rw [hsec, raw_offset_length t arrays sink]
      simp [textBytes, Nat.add_assoc]

/-- C3, at a concrete input: before the third of three arrays is registered
the base64 writer reports offset 28 and the raw writer offset 21; the unit of
the third array, an empty one, is found at these positions of the trailing
sections, which are 41 and 30 bytes long. -/
theorem offset_section_consistency_witness :
    [arrayA, arrayB, arrayEmpty][2]? = some arrayEmpty ∧
    arrayEmpty.Fits target64 ∧
    (Base64BinaryAppendedWriter.addDataAttributes
        (Base64BinaryAppendedWriter.registered target64 []
          (List.take 2 [arrayA, arrayB, arrayEmpty])) StringStringMap.empty).find "offset" =
      some "28" ∧
    textBytes "AAAAAAAAAAA=".toList <+:
      (Base64BinaryAppendedWriter.writeAppended target64
        (Base64BinaryAppendedWriter.registered target64 [] [arrayA, arrayB, arrayEmpty])
        []).drop 28 ∧
    (Base64BinaryAppendedWriter.writeAppended target64
        (Base64BinaryAppendedWriter.registered target64 [] [arrayA, arrayB, arrayEmpty])
        []).length = 41 ∧
    (RawBinaryAppendedWriter.addDataAttributes
        (RawBinaryAppendedWriter.registered target64 []
          (List.take 2 [arrayA, arrayB, arrayEmpty])) StringStringMap.empty).find "offset" =
      some "21" ∧
    [0, 0, 0, 0, 0, 0, 0, 0] <+:
      (RawBinaryAppendedWriter.writeAppended target64
        (RawBinaryAppendedWriter.registered target64 [] [arrayA, arrayB, arrayEmpty])
        []).drop 21 ∧
    (RawBinaryAppendedWriter.writeAppended target64
        (RawBinaryAppendedWriter.registered target64 [] [arrayA, arrayB, arrayEmpty])
        []).length = 30 :=
  ⟨rfl, by decide,
   (offset_section_consistency target64 [arrayA, arrayB, arrayEmpty] [] []
      StringStringMap.empty 2).1.1.trans (by decide),
   (offset_section_consistency target64 [arrayA, arrayB, arrayEmpty] [] []
      StringStringMap.empty 2).1.2.2.2.1 arrayEmpty rfl,
   (offset_section_consistency target64 [arrayA, arrayB, arrayEmpty] [] []
      StringStringMap.empty 2).1.2.2.2.2.trans (by decide),
   (offset_section_consistency target64 [arrayA, arrayB, arrayEmpty] [] []
      StringStringMap.empty 2).2.1.1.trans (by decide),
   (offset_section_consistency target64 [arrayA, arrayB, arrayEmpty] [] []
      StringStringMap.empty 2).2.1.2.2.2.1 arrayEmpty rfl,
   (offset_section_consistency target64 [arrayA, arrayB, arrayEmpty] [] []
      StringStringMap.empty 2).2.1.2.2.2.2.trans (by decide)⟩

theorem base64_reported (t : Target) (arrays : List TypedArray) (sink : Sink)
    (attributes : StringStringMap) (hfit : ∀ a ∈ arrays, a.Fits t) :
    (Base64BinaryAppendedWriter.addDataAttributes
        (Base64BinaryAppendedWriter.registered t sink arrays) attributes).find "offset" =
      some (to_string
        (arrays.map (fun a => encodedNumberOfBytes (a.byteCount + t.headerSize))).sum) := by
  have h := base64_offset_eq t arrays sink hfit
  simp only [Base64BinaryAppendedWriter.registered, Base64BinaryAppendedWriter.addDataAttributes,
    find_assign, h]

theorem raw_reported (t : Target) (arrays : List TypedArray) (sink : Sink)
    (attributes : StringStringMap) (hfit : ∀ a ∈ arrays, a.Fits t) :
    (RawBinaryAppendedWriter.addDataAttributes
        (RawBinaryAppendedWriter.registered t sink arrays) attributes).find "offset" =
      some (to_string (arrays.map (fun a => t.headerSize + a.byteCount)).sum) := by
  have h := raw_offset_eq t arrays sink hfit
  simp only [RawBinaryAppendedWriter.registered, RawBinaryAppendedWriter.addDataAttributes,
    find_assign, h]

theorem base64_reported_converted (t : Target) (arrays : List TypedArray) (sink : Sink)
    (attributes : StringStringMap) :
    (Base64BinaryAppendedWriter.addDataAttributes
        (Base64BinaryAppendedWriter.registered t sink arrays) attributes).find "offset" =
      some (to_string (arrays.map (fun a =>
        encodedNumberOfBytes (toHeaderType t a.byteCount + t.headerSize))).sum) := by
  simp only [Base64BinaryAppendedWriter.registered, Base64BinaryAppendedWriter.addDataAttributes,
    find_assign, base64_writeAll_spec, Base64BinaryAppendedWriter.fresh, Nat.zero_add,
    TypedArray.byteCount]

theorem raw_reported_converted (t : Target) (arrays : List TypedArray) (sink : Sink)
    (attributes : StringStringMap) :
    (RawBinaryAppendedWriter.addDataAttributes
        (RawBinaryAppendedWriter.registered t sink arrays) attributes).find "offset" =
      some (to_string (arrays.map (fun a =>
        t.headerSize + toHeaderType t a.byteCount)).sum) := by
  simp only [RawBinaryAppendedWriter.registered, RawBinaryAppendedWriter.addDataAttributes,
    find_assign, raw_writeAll_spec, RawBinaryAppendedWriter.fresh, Nat.zero_add,
    TypedArray.byteCount]

/-- C4, as stated, fails: with a one-byte `HeaderType`, after an array of 258
bytes has been registered the reported offset is `4`, the encoded size of the
header and of the 2 bytes that the converted count stands for, whereas the sum
of the claim is `f 258 = 348`. -/
theorem base64_offsets_not_of_byte_sizes :
    arrayWide.byteCount = 258 ∧
    (Base64BinaryAppendedWriter.addDataAttributes
        (Base64BinaryAppendedWriter.registered target8 [] [arrayWide])
        StringStringMap.empty).find "offset" = some "4" ∧
    to_string (encodedNumberOfBytes (arrayWide.byteCount + target8.headerSize)) = "348" ∧
    (Base64BinaryAppendedWriter.addDataAttributes
        (Base64BinaryAppendedWriter.registered target8 [] [arrayWide])
        StringStringMap.empty).find "offset" ≠
      some (to_string (([arrayWide].take 1).map
        (fun a => encodedNumberOfBytes (a.byteCount + target8.headerSize))).sum) := by
  decide

/-- C4, amended. On a fresh `Base64BinaryAppendedWriter`, for every list of
arrays with byte sizes `s0, s1, ...`, the offset reported before array `i` is
registered is the decimal text of the sum over `j < i` of `f s_j'`, where
`s_j'` is `s_j` converted to `HeaderType` and
`f s = encodedNumberOfBytes (s + sizeof HeaderType)
= 4 * ⌈(s + sizeof HeaderType) / 3⌉`; for three arrays the offsets are
`0`, `f s0'`, `f s0' + f s1'`. When the byte sizes are representable in
`HeaderType`, `s_j'` is `s_j` and the sums are those of the byte sizes. -/
theorem base64_offsets (t : Target) (arrays : List TypedArray) (sink : Sink)
    (attributes : StringStringMap) :
    (∀ i : Nat,
      (Base64BinaryAppendedWriter.addDataAttributes
          (Base64BinaryAppendedWriter.registered t sink (arrays.take i)) attributes).find
          "offset" =
        some (to_string ((arrays.take i).map
          (fun a => encodedNumberOfBytes (toHeaderType t a.byteCount + t.headerSize))).sum)) ∧
    (∀ s : Nat, encodedNumberOfBytes (s + t.headerSize) =
      4 * ⌈((s + t.headerSize : ℕ) : ℚ) / 3⌉₊) ∧
    (∀ a0 a1 a2 : TypedArray, arrays = [a0, a1, a2] →
      (Base64BinaryAppendedWriter.addDataAttributes
          (Base64BinaryAppendedWriter.registered t sink []) attributes).find "offset" =
        some (to_string 0) ∧
      (Base64BinaryAppendedWriter.addDataAttributes
          (Base64BinaryAppendedWriter.registered t sink [a0]) attributes).find "offset" =
        some (to_string (encodedNumberOfBytes (toHeaderType t a0.byteCount + t.headerSize))) ∧
      (Base64BinaryAppendedWriter.addDataAttributes
          (Base64BinaryAppendedWriter.registered t sink [a0, a1]) attributes).find "offset" =
        some (to_string (encodedNumberOfBytes (toHeaderType t a0.byteCount + t.headerSize) +
          encodedNumberOfBytes (toHeaderType t a1.byteCount + t.headerSize)))) ∧
    ((∀ a ∈ arrays, a.Fits t) →
      (∀ a ∈ arrays, toHeaderType t a.byteCount = a.byteCount) ∧
      (∀ i : Nat,
        (Base64BinaryAppendedWriter.addDataAttributes
            (Base64BinaryAppendedWriter.registered t sink (arrays.take i)) attributes).find
            "offset" =
          some (to_string ((arrays.take i).map
            (fun a => encodedNumberOfBytes (a.byteCount + t.headerSize))).sum)) ∧
      (∀ a0 a1 a2 : TypedArray, arrays = [a0, a1, a2] →
        (Base64BinaryAppendedWriter.addDataAttributes
            (Base64BinaryAppendedWriter.registered t sink [a0]) attributes).find "offset" =
          some (to_string (encodedNumberOfBytes (a0.byteCount + t.headerSize))) ∧
        (Base64BinaryAppendedWriter.addDataAttributes
            (Base64BinaryAppendedWriter.registered t sink [a0, a1]) attributes).find "offset" =
          some (to_string (encodedNumberOfBytes (a0.byteCount + t.headerSize) +
            encodedNumberOfBytes (a1.byteCount + t.headerSize))))) := by
  have hall : ∀ i : Nat,
      (Base64BinaryAppendedWriter.addDataAttributes
          (Base64BinaryAppendedWriter.registered t sink (arrays.take i)) attributes).find
          "offset" =
        some (to_string ((arrays.take i).map
          (fun a => encodedNumberOfBytes (toHeaderType t a.byteCount + t.headerSize))).sum) :=
    fun i => base64_reported_converted t (arrays.take i) sink attributes
  refine ⟨hall, ?_, ?_, ?_⟩
  · intro s
    rw [ceil_third]
    rfl
  · intro a0 a1 a2 h
    subst h
    refine ⟨?_, ?_, ?_⟩
    · simpa using hall 0
    · simpa using hall 1
    · simpa using hall 2
  · intro hfit
    have hfall : ∀ i : Nat,
        (Base64BinaryAppendedWriter.addDataAttributes
            (Base64BinaryAppendedWriter.registered t sink (arrays.take i)) attributes).find
            "offset" =
          some (to_string ((arrays.take i).map
            (fun a => encodedNumberOfBytes (a.byteCount + t.headerSize))).sum) :=
      fun i => base64_reported t (arrays.take i) sink attributes (fits_take hfit i)
    refine ⟨fun a ha => toHeaderType_of_fits (hfit a ha), hfall, ?_⟩
    intro a0 a1 a2 h
    subst h
    refine ⟨?_, ?_⟩
    · simpa using hfall 1
    · simpa using hfall 2

/-- C4, amended, at concrete inputs: with an eight-byte header, arrays of 1, 4
and 0 bytes are reported at offsets 0, 12 and 28; with a one-byte header, an
array registered after one of 258 bytes is reported at offset 4. -/
theorem base64_offsets_witness :
    (∀ a ∈ [arrayA, arrayB, arrayEmpty], a.Fits target64) ∧
    (Base64BinaryAppendedWriter.addDataAttributes
        (Base64BinaryAppendedWriter.registered target64 []
          (List.take 0 [arrayA, arrayB, arrayEmpty])) StringStringMap.empty).find "offset" =
      some "0" ∧
    (Base64BinaryAppendedWriter.addDataAttributes
        (Base64BinaryAppendedWriter.registered target64 []
          (List.take 1 [arrayA, arrayB, arrayEmpty])) StringStringMap.empty).find "offset" =
      some "12" ∧
    (Base64BinaryAppendedWriter.addDataAttributes
        (Base64BinaryAppendedWriter.registered target64 []
          (List.take 2 [arrayA, arrayB, arrayEmpty])) StringStringMap.empty).find "offset" =
      some "28" ∧
    (Base64BinaryAppendedWriter.addDataAttributes
        (Base64BinaryAppendedWriter.registered target8 []
          (List.take 1 [arrayWide, arrayA])) StringStringMap.empty).find "offset" =
      some "4" :=
  ⟨by decide,
   (((base64_offsets target64 [arrayA, arrayB, arrayEmpty] [] StringStringMap.empty).2.2.2
      (by decide)).2.1 0).trans (by decide),
   (((base64_offsets target64 [arrayA, arrayB, arrayEmpty] [] StringStringMap.empty).2.2.2
      (by decide)).2.1 1).trans (by decide),
   (((base64_offsets target64 [arrayA, arrayB, arrayEmpty] [] StringStringMap.empty).2.2.2
      (by decide)).2.1 2).trans (by decide),
   ((base64_offsets target8 [arrayWide, arrayA] [] StringStringMap.empty).1 1).trans
     (by decide)⟩

/-- C5, as stated, fails: with a one-byte `HeaderType`, after an array of 258
bytes has been registered the reported offset is `3`, the header and the 2
bytes that the converted count stands for, whereas the sum of the claim is
`1 + 258 = 259`. -/
theorem raw_offsets_not_of_byte_sizes :
    arrayWide.byteCount = 258 ∧
    (RawBinaryAppendedWriter.addDataAttributes
        (RawBinaryAppendedWriter.registered target8 [] [arrayWide])
        StringStringMap.empty).find "offset" = some "3" ∧
    to_string (target8.headerSize + arrayWide.byteCount) = "259" ∧
    (RawBinaryAppendedWriter.addDataAttributes
        (RawBinaryAppendedWriter.registered target8 [] [arrayWide])
        StringStringMap.empty).find "offset" ≠
      some (to_string (([arrayWide].take 1).map
        (fun a => target8.headerSize + a.byteCount)).sum) := by
  decide

/-- C5, amended. On a fresh `RawBinaryAppendedWriter`, for every list of arrays
with byte sizes `s0, s1, ...`, the offset reported before array `i` is
registered is the decimal text of the sum over `j < i` of
`sizeof HeaderType + s_j'`, where `s_j'` is `s_j` converted to `HeaderType`;
for three arrays the offsets are `0`, `H + s0'`, `2 * H + s0' + s1'`; and every
`writeData` call strictly increases the offset. When the byte sizes are
representable in `HeaderType`, `s_j'` is `s_j` and the sums are those of the
byte sizes. -/
theorem raw_offsets (t : Target) (arrays : List TypedArray) (sink : Sink)
    (attributes : StringStringMap) :
    (∀ i : Nat,
      (RawBinaryAppendedWriter.addDataAttributes
          (RawBinaryAppendedWriter.registered t sink (arrays.take i)) attributes).find
          "offset" =
        some (to_string ((arrays.take i).map
          (fun a => t.headerSize + toHeaderType t a.byteCount)).sum)) ∧
    (∀ a0 a1 a2 : TypedArray, arrays = [a0, a1, a2] →
      (RawBinaryAppendedWriter.addDataAttributes
          (RawBinaryAppendedWriter.registered t sink []) attributes).find "offset" =
        some (to_string 0) ∧
      (RawBinaryAppendedWriter.addDataAttributes
          (RawBinaryAppendedWriter.registered t sink [a0]) attributes).find "offset" =
        some (to_string (t.headerSize + toHeaderType t a0.byteCount)) ∧
      (RawBinaryAppendedWriter.addDataAttributes
          (RawBinaryAppendedWriter.registered t sink [a0, a1]) attributes).find "offset" =
        some (to_string (2 * t.headerSize + toHeaderType t a0.byteCount +
          toHeaderType t a1.byteCount))) ∧
    (∀ (w : RawBinaryAppendedWriter) (output : Sink) (data : TypedArray),
      w.offset < (RawBinaryAppendedWriter.writeData t w output data).1.offset) ∧
    ((∀ a ∈ arrays, a.Fits t) →
      (∀ a ∈ arrays, toHeaderType t a.byteCount = a.byteCount) ∧
      (∀ i : Nat,
        (RawBinaryAppendedWriter.addDataAttributes
            (RawBinaryAppendedWriter.registered t sink (arrays.take i)) attributes).find
            "offset" =
          some (to_string ((arrays.take i).map
            (fun a => t.headerSize + a.byteCount)).sum)) ∧
      (∀ a0 a1 a2 : TypedArray, arrays = [a0, a1, a2] →
        (RawBinaryAppendedWriter.addDataAttributes
            (RawBinaryAppendedWriter.registered t sink [a0]) attributes).find "offset" =
          some (to_string (t.headerSize + a0.byteCount)) ∧
        (RawBinaryAppendedWriter.addDataAttributes
            (RawBinaryAppendedWriter.registered t sink [a0, a1]) attributes).find "offset" =
          some (to_string (2 * t.headerSize + a0.byteCount + a1.byteCount)))) := by
  have hall : ∀ i : Nat,
      (RawBinaryAppendedWriter.addDataAttributes
          (RawBinaryAppendedWriter.registered t sink (arrays.take i)) attributes).find
          "offset" =
        some (to_string ((arrays.take i).map
          (fun a => t.headerSize + toHeaderType t a.byteCount)).sum) :=
    fun i => raw_reported_converted t (arrays.take i) sink attributes
  refine ⟨hall, ?_, ?_, ?_⟩
  · intro a0 a1 a2 h
    subst h
    refine ⟨?_, ?_, ?_⟩
    · simpa using hall 0
    · simpa using hall 1
    · have h2 := hall 2
      have e : t.headerSize + toHeaderType t a0.byteCount +
            (t.headerSize + toHeaderType t a1.byteCount) =
          2 * t.headerSize + toHeaderType t a0.byteCount + toHeaderType t a1.byteCount := by
        omega
      simpa [← Nat.add_assoc, e] using h2
  · intro w output data
    have := t.headerSize_pos
    simp only [RawBinaryAppendedWriter.writeData]
    omega
  · intro hfit
    have hfall : ∀ i : Nat,
        (RawBinaryAppendedWriter.addDataAttributes
            (RawBinaryAppendedWriter.registered t sink (arrays.take i)) attributes).find
            "offset" =
          some (to_string ((arrays.take i).map
            (fun a => t.headerSize + a.byteCount)).sum) :=
      fun i => raw_reported t (arrays.take i) sink attributes (fits_take hfit i)
    refine ⟨fun a ha => toHeaderType_of_fits (hfit a ha), hfall, ?_⟩
    intro a0 a1 a2 h
    subst h
    refine ⟨?_, ?_⟩
    · simpa using hfall 1
    · have h2 := hfall 2
      have e : t.headerSize + a0.byteCount + (t.headerSize + a1.byteCount) =
          2 * t.headerSize + a0.byteCount + a1.byteCount := by omega
      simpa [← Nat.add_assoc, e] using h2

/-- C5, amended, at concrete inputs: with an eight-byte header, arrays of 1, 4
and 0 bytes are reported at offsets 0, 9 and 21; with a one-byte header, an
array registered after one of 258 bytes is reported at offset 3. -/
theorem raw_offsets_witness :
    (∀ a ∈ [arrayA, arrayB, arrayEmpty], a.Fits target64) ∧
    (RawBinaryAppendedWriter.addDataAttributes
        (RawBinaryAppendedWriter.registered target64 []
          (List.take 0 [arrayA, arrayB, arrayEmpty])) StringStringMap.empty).find "offset" =
      some "0" ∧
    (RawBinaryAppendedWriter.addDataAttributes
        (RawBinaryAppendedWriter.registered target64 []
          (List.take 1 [arrayA, arrayB, arrayEmpty])) StringStringMap.empty).find "offset" =
      some "9" ∧
    (RawBinaryAppendedWriter.addDataAttributes
        (RawBinaryAppendedWriter.registered target64 []
          (List.take 2 [arrayA, arrayB, arrayEmpty])) StringStringMap.empty).find "offset" =
      some "21" ∧
    (RawBinaryAppendedWriter.addDataAttributes
        (RawBinaryAppendedWriter.registered target8 []
          (List.take 1 [arrayWide, arrayA])) StringStringMap.empty).find "offset" =
      some "3" :=
  ⟨by decide,
   (((raw_offsets target64 [arrayA, arrayB, arrayEmpty] [] StringStringMap.empty).2.2.2
      (by decide)).2.1 0).trans (by decide),
   (((raw_offsets target64 [arrayA, arrayB, arrayEmpty] [] StringStringMap.empty).2.2.2
      (by decide)).2.1 1).trans (by decide),
   (((raw_offsets target64 [arrayA, arrayB, arrayEmpty] [] StringStringMap.empty).2.2.2
      (by decide)).2.1 2).trans (by decide),
   ((raw_offsets target8 [arrayWide, arrayA] [] StringStringMap.empty).1 1).trans
     (by decide)⟩

/-! ## Inline base64 -/

theorem base64Encode_append_aux (n : Nat) :
    ∀ a b : List Byte, a.length = 3 * n →
      base64Encode (a ++ b) = base64Encode a ++ base64Encode b := by
  induction n with
  | zero =>
    intro a b h
    have ha : a = [] := List.length_eq_zero.mp (by simpa using h)
    subst ha
    rfl
  | succ n ih =>
    intro a b h
    match a, h with
    | x :: y :: z :: rest, h =>
      have hrest : rest.length = 3 * n := by simp at h; omega
      simp [base64Encode, ih rest b hrest]
    | [], h => simp at h
    | [_], h => simp at h; omega
    | [_, _], h => simp at h; omega

/-- Two codec calls give the same text as one call over the concatenation when
the first range holds a multiple of three bytes. -/
theorem base64Encode_append (a b : List Byte) (h : a.length % 3 = 0) :
    base64Encode (a ++ b) = base64Encode a ++ base64Encode b :=
  base64Encode_append_aux (a.length / 3) a b (by omega)

/-- C6, at a failing input. With an eight-byte header and a payload of four
bytes, `Base64BinaryWriter::writeData` writes `BAAAAAAAAAA=TWFuAA==` and a
newline: the header is encoded and padded on its own, and the payload after
it. The codec output of header followed by payload, which the claim states
and which `Base64BinaryAppendedWriter::writeAppended` produces for the same
array, is `BAAAAAAAAABNYW4A`. -/
theorem inline_base64_not_one_call :
    Base64BinaryWriter.writeData target64 [] arrayB =
      textBytes "BAAAAAAAAAA=TWFuAA==\n".toList ∧
    textBytes (base64Encode (headerBytes target64 arrayB.byteCount ++ arrayB.mem) ++ ['\n']) =
      textBytes "BAAAAAAAAABNYW4A\n".toList ∧
    Base64BinaryWriter.writeData target64 [] arrayB ≠
      textBytes (base64Encode (headerBytes target64 arrayB.byteCount ++ arrayB.mem) ++ ['\n']) ∧
    Base64BinaryAppendedWriter.writeAppended target64
        (Base64BinaryAppendedWriter.registered target64 [] [arrayB]) [] =
      textBytes "BAAAAAAAAABNYW4A\n".toList := by
  decide

/-- What `Base64BinaryWriter::writeData` writes for any array: the codec output
of the header, the codec output of the payload, and a newline. The two texts
together are the codec output of header followed by payload when
`sizeof( HeaderType )` is a multiple of three or the payload is empty. -/
theorem inline_base64_two_calls (t : Target) (output : Sink) (data : TypedArray) :
    Base64BinaryWriter.writeData t output data =
      output ++ textBytes (base64Encode (headerBytes t (Base64BinaryWriter.numberOfBytes t data))
        ++ base64Encode data.mem ++ ['\n']) ∧
    (t.headerSize % 3 = 0 ∨ data.mem = [] →
      Base64BinaryWriter.writeData t output data =
        output ++ textBytes
          (base64Encode (headerBytes t (Base64BinaryWriter.numberOfBytes t data) ++ data.mem) ++
            ['\n'])) := by
  have h1 : Base64BinaryWriter.writeData t output data =
      output ++ textBytes (base64Encode (headerBytes t (Base64BinaryWriter.numberOfBytes t data))
        ++ base64Encode data.mem ++ ['\n']) := by
    simp [Base64BinaryWriter.writeData, putStr, textBytes_append, List.append_assoc]
  refine ⟨h1, ?_⟩
  rintro (h | h)
  · rw [h1, base64Encode_append _ _ (by rw [headerBytes_length]; exact h)]
  · rw [h1, h]
    simp [base64Encode]

/-! ## Plain text -/

/-- C7, at failing inputs. The unsigned types other than `unsigned long long`
are printed through signed conversions: `unsigned char` 255, `unsigned short`
65535, `unsigned int` 4294967295 and `unsigned long` 18446744073709551615 are
all values of their types and are all rendered as `-1`, while
`unsigned long long` 18446744073709551615 is rendered exactly. -/
theorem ascii_unsigned_printed_signed :
    (IntegerType.unsignedChar.Holds 255 ∧
      AsciiWriter.writeData .unsignedChar [] [255] = textBytes "-1 \n".toList) ∧
    (IntegerType.unsignedShort.Holds 65535 ∧
      AsciiWriter.writeData .unsignedShort [] [65535] = textBytes "-1 \n".toList) ∧
    (IntegerType.unsignedInt.Holds 4294967295 ∧
      AsciiWriter.writeData .unsignedInt [] [4294967295] = textBytes "-1 \n".toList) ∧
    (IntegerType.unsignedLongInt.Holds 18446744073709551615 ∧
      AsciiWriter.writeData .unsignedLongInt [] [18446744073709551615] =
        textBytes "-1 \n".toList) ∧
    (IntegerType.unsignedLongLongInt.Holds 18446744073709551615 ∧
      AsciiWriter.writeData .unsignedLongLongInt [] [18446744073709551615] =
        textBytes "18446744073709551615 \n".toList) := by
  decide

theorem digitChar_isDecimal (k : Nat) (h : k < 10) :
    '0' ≤ Nat.digitChar k ∧ Nat.digitChar k ≤ '9' := by
  interval_cases k <;> decide

theorem toDigitsCore_isDecimal (fuel : Nat) :
    ∀ (n : Nat) (ds : List Char), (∀ c ∈ ds, '0' ≤ c ∧ c ≤ '9') →
      ∀ c ∈ Nat.toDigitsCore 10 fuel n ds, '0' ≤ c ∧ c ≤ '9' := by
  induction fuel with
  | zero => intro n ds h; simpa [Nat.toDigitsCore] using h
  | succ fuel ih =>
    intro n ds h
    have hd := digitChar_isDecimal (n % 10) (Nat.mod_lt _ (by decide))
    have hds : ∀ c ∈ Nat.digitChar (n % 10) :: ds, '0' ≤ c ∧ c ≤ '9' := by
      intro c hc
      rcases List.mem_cons.mp hc with rfl | hc
      · exact hd
      · exact h c hc
    unfold Nat.toDigitsCore
    by_cases hz : n / 10 = 0
    · simpa [hz] using hds
    · simpa [hz] using ih (n / 10) _ hds

theorem decimal_isDecimal (n : Nat) : ∀ c ∈ decimal n, '0' ≤ c ∧ c ≤ '9' :=
  toDigitsCore_isDecimal (n + 1) n [] (by simp)

theorem decimalInt_chars (v : Int) :
    ∀ c ∈ decimalInt v, c = '-' ∨ ('0' ≤ c ∧ c ≤ '9') := by
  intro c hc
  unfold decimalInt at hc
  split at hc
  · rcases List.mem_cons.mp hc with rfl | hc
    · exact Or.inl rfl
    · exact Or.inr (decimal_isDecimal _ c hc)
  · exact Or.inr (decimal_isDecimal _ c hc)

theorem foldl_writeValue_int8 (data : List Int8) (output : Sink) :
    data.foldl AsciiWriter.writeValue_int8 output =
      output ++ textBytes
        (data.map (fun value => decimalInt (static_cast_int value) ++ [' '])).flatten := by
  induction data generalizing output with
  | nil => simp [textBytes]
  | cons x xs ih =>
    simp [ih, AsciiWriter.writeValue_int8, putStr, textBytes, List.append_assoc]

/-- C8. For every array of `std::int8_t`, `AsciiWriter::writeData` appends, for
each element in order, the decimal text of the value widened to `int` and one
space, and then one newline; the text consists of `-`, the digits `0`..`9`,
spaces and the newline only. The array `[-1, 0, 127]` gives `-1 0 127 ` and a
newline, the empty array gives the newline alone. -/
theorem ascii_int8_output (output : Sink) (data : List Int8) :
    AsciiWriter.writeData_int8 output data =
      output ++ textBytes
        ((data.map (fun value => decimalInt (static_cast_int value) ++ [' '])).flatten ++
          ['\n']) ∧
    (∀ c ∈ (data.map (fun value => decimalInt (static_cast_int value) ++ [' '])).flatten ++
        ['\n'],
      c = '-' ∨ ('0' ≤ c ∧ c ≤ '9') ∨ c = ' ' ∨ c = '\n') ∧
    AsciiWriter.writeData_int8 []
        [⟨-1, by decide, by decide⟩, ⟨0, by decide, by decide⟩, ⟨127, by decide, by decide⟩] =
      textBytes "-1 0 127 \n".toList ∧
    AsciiWriter.writeData_int8 [] [] = textBytes "\n".toList := by
  refine ⟨?_, ?_, by decide, by decide⟩
  · simp [AsciiWriter.writeData_int8, foldl_writeValue_int8, putStr, textBytes_append,
      List.append_assoc]
  · intro c hc
    rcases List.mem_append.mp hc with hc | hc
    · obtain ⟨l, hl, hcl⟩ := List.mem_flatten.mp hc
      obtain ⟨value, _, rfl⟩ := List.mem_map.mp hl
      rcases List.mem_append.mp hcl with hcl | hcl
      · rcases decimalInt_chars _ c hcl with h | h
        · exact Or.inl h
        · exact Or.inr (Or.inl h)
      · exact Or.inr (Or.inr (Or.inl (by simpa using hcl)))
    · exact Or.inr (Or.inr (Or.inr (by simpa using hc)))

/-! ## Header values -/

theorem encodedNumberOfBytes_gt (n h : Nat) (hh : 0 < h) :
    n < encodedNumberOfBytes (n + h) := by
  unfold encodedNumberOfBytes
  omega

/-- C9, as stated, fails: with a one-byte `HeaderType`, an array of 129
elements of two bytes has 258 bytes, but the header value is 2 in all three
writers. -/
theorem header_value_not_byte_count :
    arrayWidePairs.size * arrayWidePairs.elemSize = 258 ∧
    Base64BinaryWriter.numberOfBytes target8 arrayWidePairs = 2 ∧
    ((Base64BinaryAppendedWriter.writeData target8 Base64BinaryAppendedWriter.fresh []
        arrayWidePairs).1.appendedData.map Prod.snd) = [2] ∧
    ((RawBinaryAppendedWriter.writeData target8 RawBinaryAppendedWriter.fresh []
        arrayWidePairs).1.appendedData.map Prod.snd) = [2] ∧
    Base64BinaryWriter.numberOfBytes target8 arrayWidePairs ≠
      arrayWidePairs.size * arrayWidePairs.elemSize := by
  decide

/-- C9, amended. For every array of `data.size` elements of `data.elemSize`
bytes, the header value is the product converted to `HeaderType`, that is the
product modulo `2 ^ (8 * sizeof HeaderType)`: the inline writer encodes its
bytes at the front of what it writes, both appended writers record it in
`writeData` and write its bytes in `writeAppended` in front of that many
payload bytes. It is not the encoded size, by which the base64 offset advances
and which is strictly larger. When the product is representable in
`HeaderType`, the header value is the product itself and the payload is the
whole array. -/
theorem header_value_is_byte_count (t : Target) (data : TypedArray) (sink output : Sink) :
    toHeaderType t (data.size * data.elemSize) =
      data.size * data.elemSize % 2 ^ (8 * t.headerSize) ∧
    (Base64BinaryWriter.numberOfBytes t data = toHeaderType t (data.size * data.elemSize) ∧
      output ++ textBytes (base64Encode
          (headerBytes t (toHeaderType t (data.size * data.elemSize)))) <+:
        Base64BinaryWriter.writeData t output data) ∧
    (∀ w : Base64BinaryAppendedWriter,
      (Base64BinaryAppendedWriter.writeData t w sink data).1.appendedData =
        w.appendedData ++ [(data.mem, toHeaderType t (data.size * data.elemSize))] ∧
      Base64BinaryAppendedWriter.writeAppended t
          (Base64BinaryAppendedWriter.writeData t w sink data).1 output =
        putStr (putStr (w.appendedData.foldl (Base64BinaryAppendedWriter.writeDataSet t) output)
          (base64Encode (headerBytes t (toHeaderType t (data.size * data.elemSize)) ++
            data.mem.take (toHeaderType t (data.size * data.elemSize))))) ['\n'] ∧
      (Base64BinaryAppendedWriter.writeData t w sink data).1.offset =
        w.offset +
          encodedNumberOfBytes (toHeaderType t (data.size * data.elemSize) + t.headerSize)) ∧
    (∀ w : RawBinaryAppendedWriter,
      (RawBinaryAppendedWriter.writeData t w sink data).1.appendedData =
        w.appendedData ++ [(data.mem, toHeaderType t (data.size * data.elemSize))] ∧
      RawBinaryAppendedWriter.writeAppended t
          (RawBinaryAppendedWriter.writeData t w sink data).1 output =
        putStr (putBytes (putBytes
          (w.appendedData.foldl (RawBinaryAppendedWriter.writeDataSet t) output)
          (headerBytes t (toHeaderType t (data.size * data.elemSize))))
          (data.mem.take (toHeaderType t (data.size * data.elemSize)))) ['\n']) ∧
    toHeaderType t (data.size * data.elemSize) <
      encodedNumberOfBytes (toHeaderType t (data.size * data.elemSize) + t.headerSize) ∧
    (data.Fits t →
      toHeaderType t (data.size * data.elemSize) = data.size * data.elemSize ∧
      data.mem.take (data.size * data.elemSize) = data.mem ∧
      Base64BinaryWriter.numberOfBytes t data = data.size * data.elemSize ∧
      (∀ w : Base64BinaryAppendedWriter,
        (Base64BinaryAppendedWriter.writeData t w sink data).1.appendedData =
          w.appendedData ++ [(data.mem, data.size * data.elemSize)]) ∧
      (∀ w : RawBinaryAppendedWriter,
        (RawBinaryAppendedWriter.writeData t w sink data).1.appendedData =
          w.appendedData ++ [(data.mem, data.size * data.elemSize)]) ∧
      data.size * data.elemSize <
        encodedNumberOfBytes (data.size * data.elemSize + t.headerSize)) := by
  refine ⟨rfl, ⟨rfl, ?_⟩, ?_, ?_, encodedNumberOfBytes_gt _ _ t.headerSize_pos, ?_⟩
  · simp only [Base64BinaryWriter.writeData, Base64BinaryWriter.numberOfBytes, putStr,
      List.append_assoc]
    exact (List.prefix_append_right_inj _).mpr (List.prefix_append _ _)
  · intro w
    simp [Base64BinaryAppendedWriter.writeData, Base64BinaryAppendedWriter.writeAppended,
      Base64BinaryAppendedWriter.writeDataSet, List.foldl_append]
  · intro w
    simp [RawBinaryAppendedWriter.writeData, RawBinaryAppendedWriter.writeAppended,
      RawBinaryAppendedWriter.writeDataSet, List.foldl_append]
  · intro hfit
    have hh := toHeaderType_of_fits hfit
    have htake := take_byteCount data
    simp only [TypedArray.byteCount] at hh htake
    refine ⟨hh, htake, hh, ?_, ?_, encodedNumberOfBytes_gt _ _ t.headerSize_pos⟩
    · intro w
      simp [Base64BinaryAppendedWriter.writeData, hh]
    · intro w
      simp [RawBinaryAppendedWriter.writeData, hh]

/-- C9, amended, at concrete inputs: two elements of two bytes give the header
value 4 on an eight-byte header; 129 elements of two bytes give the header
value 2 on a one-byte header. -/
theorem header_value_is_byte_count_witness :
    arrayB.Fits target64 ∧
    Base64BinaryWriter.numberOfBytes target64 arrayB = 4 ∧
    (Base64BinaryAppendedWriter.writeData target64 Base64BinaryAppendedWriter.fresh []
        arrayB).1.appendedData = [([0x4D, 0x61, 0x6E, 0x00], 4)] ∧
    (RawBinaryAppendedWriter.writeData target64 RawBinaryAppendedWriter.fresh []
        arrayB).1.appendedData = [([0x4D, 0x61, 0x6E, 0x00], 4)] ∧
    Base64BinaryWriter.numberOfBytes target8 arrayWidePairs = 2 :=
  ⟨by decide,
   ((header_value_is_byte_count target64 arrayB [] []).2.2.2.2.2 (by decide)).2.2.1,
   ((header_value_is_byte_count target64 arrayB [] []).2.2.2.2.2 (by decide)).2.2.2.1
      Base64BinaryAppendedWriter.fresh,
   ((header_value_is_byte_count target64 arrayB [] []).2.2.2.2.2 (by decide)).2.2.2.2.1
      RawBinaryAppendedWriter.fresh,
   ((header_value_is_byte_count target8 arrayWidePairs [] []).2.1.1).trans (by decide)⟩

/-! ## Arrays without elements -/

theorem leBytes_zero (k : Nat) : leBytes k 0 = List.replicate k 0 := by
  induction k with
  | zero => rfl
  | succ k ih => simp [leBytes, ih, List.replicate_succ]

theorem headerBytes_zero (t : Target) : headerBytes t 0 = List.replicate t.headerSize 0 := by
  unfold headerBytes
  split <;> simp [leBytes_zero]

/-- What the writers do with an array without elements where the index of
`operator[]` is not checked and the pointer it yields is never dereferenced:
each appended writer records the header value 0; `writeAppended` emits for it
the header alone, `sizeof( HeaderType )` zero bytes (raw) or their codec output
(base64), and no payload byte; the offset advances by `sizeof( HeaderType )`
(raw) or `encodedNumberOfBytes( sizeof( HeaderType ) )` (base64); the inline
writer writes the codec output of the zero header and a newline. -/
theorem zero_length_array (t : Target) (data : TypedArray) (sink output : Sink)
    (hzero : data.size = 0) :
    data.mem = [] ∧
    (∀ w : Base64BinaryAppendedWriter,
      (Base64BinaryAppendedWriter.writeData t w sink data).1.appendedData =
        w.appendedData ++ [([], 0)] ∧
      Base64BinaryAppendedWriter.writeAppended t
          (Base64BinaryAppendedWriter.writeData t w sink data).1 output =
        putStr (putStr (w.appendedData.foldl (Base64BinaryAppendedWriter.writeDataSet t) output)
          (base64Encode (List.replicate t.headerSize 0))) ['\n'] ∧
      (Base64BinaryAppendedWriter.writeData t w sink data).1.offset =
        w.offset + encodedNumberOfBytes t.headerSize) ∧
    (∀ w : RawBinaryAppendedWriter,
      (RawBinaryAppendedWriter.writeData t w sink data).1.appendedData =
        w.appendedData ++ [([], 0)] ∧
      RawBinaryAppendedWriter.writeAppended t
          (RawBinaryAppendedWriter.writeData t w sink data).1 output =
        putStr (putBytes (w.appendedData.foldl (RawBinaryAppendedWriter.writeDataSet t) output)
          (List.replicate t.headerSize 0)) ['\n'] ∧
      (RawBinaryAppendedWriter.writeData t w sink data).1.offset =
        w.offset + t.headerSize) ∧
    Base64BinaryWriter.writeData t output data =
      putStr (putStr output (base64Encode (List.replicate t.headerSize 0))) ['\n'] := by
  have hmem : data.mem = [] := List.length_eq_zero.mp (by rw [data.wf, hzero, Nat.zero_mul])
  have hh : toHeaderType t (data.size * data.elemSize) = 0 := by
    simp [toHeaderType, hzero]
  refine ⟨hmem, ?_, ?_, ?_⟩
  · intro w
    simp [Base64BinaryAppendedWriter.writeData, Base64BinaryAppendedWriter.writeAppended,
      Base64BinaryAppendedWriter.writeDataSet, hh, hmem, List.foldl_append, headerBytes_zero]
  · intro w
    simp [RawBinaryAppendedWriter.writeData, RawBinaryAppendedWriter.writeAppended,
      RawBinaryAppendedWriter.writeDataSet, hh, hmem, List.foldl_append, headerBytes_zero,
      putBytes]
  · simp [Base64BinaryWriter.writeData, Base64BinaryWriter.numberOfBytes, hh, hmem,
      headerBytes_zero, base64Encode, putStr, textBytes]

theorem writeDataChecked_of_pos (t : Target) (w64 : Base64BinaryAppendedWriter)
    (wraw : RawBinaryAppendedWriter) (output : Sink) (data : TypedArray)
    (hpos : 0 < data.size) :
    Base64BinaryAppendedWriter.writeDataChecked t w64 output data =
      some (Base64BinaryAppendedWriter.writeData t w64 output data) ∧
    RawBinaryAppendedWriter.writeDataChecked t wraw output data =
      some (RawBinaryAppendedWriter.writeData t wraw output data) := by
  simp [Base64BinaryAppendedWriter.writeDataChecked, RawBinaryAppendedWriter.writeDataChecked,
    hpos]

theorem writeDataSetChecked_of_pos (t : Target) (output : Sink) (dataSet : List Byte × Nat)
    (hpos : 0 < dataSet.2) :
    Base64BinaryAppendedWriter.writeDataSetChecked t output dataSet =
      some (Base64BinaryAppendedWriter.writeDataSet t output dataSet) := by
  have := t.headerSize_pos
  simp only [Base64BinaryAppendedWriter.writeDataSetChecked]
  rw [if_pos ⟨by omega, by omega⟩]

/-- C10, at the failing input. For the empty array both appended writers index
the vector outside the contract of `operator[]`: `writeData` evaluates
`&data[0]` although the vector has no element, and the loop of
`Base64BinaryAppendedWriter::writeAppended` evaluates
`&data[ sizeof( HeaderType ) ]` on a buffer of exactly `sizeof( HeaderType )`
elements, so that registering the array has no defined result, whereas an
array with an element is registered within the contract. Where the index is
not checked, the header value is 0, the unit is the header alone, the offsets
advance by 12 and 8, and the inline writer, which does not index the vector,
writes the encoded zero header and a newline. -/
theorem zero_length_array_out_of_contract :
    arrayEmpty.size = 0 ∧
    Base64BinaryAppendedWriter.writeDataChecked target64 Base64BinaryAppendedWriter.fresh []
        arrayEmpty = none ∧
    RawBinaryAppendedWriter.writeDataChecked target64 RawBinaryAppendedWriter.fresh []
        arrayEmpty = none ∧
    Base64BinaryAppendedWriter.writeDataSetChecked target64 [] ([], 0) = none ∧
    Base64BinaryAppendedWriter.writeDataChecked target64 Base64BinaryAppendedWriter.fresh []
        arrayA =
      some (Base64BinaryAppendedWriter.writeData target64 Base64BinaryAppendedWriter.fresh []
        arrayA) ∧
    (Base64BinaryAppendedWriter.writeData target64 Base64BinaryAppendedWriter.fresh []
        arrayEmpty).1.appendedData = [([], 0)] ∧
    Base64BinaryAppendedWriter.writeAppended target64
        (Base64BinaryAppendedWriter.writeData target64 Base64BinaryAppendedWriter.fresh []
          arrayEmpty).1 [] = textBytes "AAAAAAAAAAA=\n".toList ∧
    (Base64BinaryAppendedWriter.writeData target64 Base64BinaryAppendedWriter.fresh []
        arrayEmpty).1.offset = 12 ∧
    RawBinaryAppendedWriter.writeAppended target64
        (RawBinaryAppendedWriter.writeData target64 RawBinaryAppendedWriter.fresh []
          arrayEmpty).1 [] = [0, 0, 0, 0, 0, 0, 0, 0, 10] ∧
    (RawBinaryAppendedWriter.writeData target64 RawBinaryAppendedWriter.fresh []
        arrayEmpty).1.offset = 8 ∧
    Base64BinaryWriter.writeData target64 [] arrayEmpty =
      textBytes "AAAAAAAAAAA=\n".toList :=
  ⟨rfl, rfl, rfl, rfl, rfl, by decide, by decide, by decide, by decide, by decide, by decide⟩

/-! ## Attributes -/

theorem find_assign_ne (attributes : StringStringMap) (key value other : String)
    (h : other ≠ key) :
    (attributes.assign key value).find other = attributes.find other := by
  obtain ⟨entries⟩ := attributes
  simp only [StringStringMap.assign, StringStringMap.find]
  congr 1
  induction entries with
  | nil =>
    have hk : ¬ key = other := fun e => h e.symm
    simp [assignEntries, hk]
  | cons e rest ih =>
    unfold assignEntries
    by_cases hk : e.1 = key
    · have ho : ¬ e.1 = other := fun e2 => h (e2.symm.trans hk)
      have hk2 : ¬ key = other := fun e2 => h e2.symm
      simp [hk, ho, hk2]
    · simp only [hk, if_false]
      by_cases ho : e.1 = other
      · simp [ho]
      · rw [List.find?_cons_of_neg _ (by simpa using ho),
          List.find?_cons_of_neg _ (by simpa using ho)]
        exact ih

theorem assign_of_find (attributes : StringStringMap) (key value : String)
    (h : attributes.find key = some value) : attributes.assign key value = attributes := by
  obtain ⟨entries⟩ := attributes
  simp only [StringStringMap.assign, StringStringMap.find] at *
  congr 1
  induction entries with
  | nil => simp at h
  | cons e rest ih =>
    unfold assignEntries
    by_cases hk : e.1 = key
    · simp only [hk, if_true]
      rw [List.find?_cons_of_pos _ (by simpa using hk)] at h
      simp only [Option.map_some', Option.some.injEq] at h
      rw [← hk, ← h]
    · simp only [hk, if_false]
      rw [List.find?_cons_of_neg _ (by simpa using hk)] at h
      rw [ih h]

/-- C11. `addDataAttributes` stores `ascii` (AsciiWriter), `binary`
(Base64BinaryWriter) or `appended` (both appended writers) under the key
`format`, for every writer state and every incoming attribute set. Only the two
appended writers touch the key `offset`, storing the decimal text of the
current offset; every other key keeps what it held. The writer is only read:
a second call on the result changes nothing. -/
theorem addDataAttributes_effect (attributes : StringStringMap)
    (w64 : Base64BinaryAppendedWriter) (wraw : RawBinaryAppendedWriter) :
    ((AsciiWriter.addDataAttributes attributes).find "format" = some "ascii" ∧
      (AsciiWriter.addDataAttributes attributes).find "offset" = attributes.find "offset" ∧
      (∀ key : String, key ≠ "format" →
        (AsciiWriter.addDataAttributes attributes).find key = attributes.find key)) ∧
    ((Base64BinaryWriter.addDataAttributes attributes).find "format" = some "binary" ∧
      (Base64BinaryWriter.addDataAttributes attributes).find "offset" =
        attributes.find "offset" ∧
      (∀ key : String, key ≠ "format" →
        (Base64BinaryWriter.addDataAttributes attributes).find key = attributes.find key)) ∧
    ((Base64BinaryAppendedWriter.addDataAttributes w64 attributes).find "format" =
        some "appended" ∧
      (Base64BinaryAppendedWriter.addDataAttributes w64 attributes).find "offset" =
        some (to_string w64.offset) ∧
      (∀ key : String, key ≠ "format" → key ≠ "offset" →
        (Base64BinaryAppendedWriter.addDataAttributes w64 attributes).find key =
          attributes.find key) ∧
      Base64BinaryAppendedWriter.addDataAttributes w64
          (Base64BinaryAppendedWriter.addDataAttributes w64 attributes) =
        Base64BinaryAppendedWriter.addDataAttributes w64 attributes) ∧
    ((RawBinaryAppendedWriter.addDataAttributes wraw attributes).find "format" =
        some "appended" ∧
      (RawBinaryAppendedWriter.addDataAttributes wraw attributes).find "offset" =
        some (to_string wraw.offset) ∧
      (∀ key : String, key ≠ "format" → key ≠ "offset" →
        (RawBinaryAppendedWriter.addDataAttributes wraw attributes).find key =
          attributes.find key) ∧
      RawBinaryAppendedWriter.addDataAttributes wraw
          (RawBinaryAppendedWriter.addDataAttributes wraw attributes) =
        RawBinaryAppendedWriter.addDataAttributes wraw attributes) := by
  have hne : ("format" : String) ≠ "offset" := by decide
  have hne2 : ("offset" : String) ≠ "format" := by decide
  have happ : ∀ (o : String),
      (((attributes.assign "format" "appended").assign "offset" o).find "format" =
        some "appended") := by
    intro o
    rw [find_assign_ne _ _ _ _ hne, find_assign]
  have hidem : ∀ (o : String),
      (((attributes.assign "format" "appended").assign "offset" o).assign "format"
          "appended").assign "offset" o =
        (attributes.assign "format" "appended").assign "offset" o := by
    intro o
    rw [assign_of_find _ _ _ (happ o), assign_of_find _ _ _ (find_assign _ _ _)]
  refine ⟨⟨find_assign _ _ _, find_assign_ne _ _ _ _ hne2,
      fun key hk => find_assign_ne _ _ _ _ hk⟩,
    ⟨find_assign _ _ _, find_assign_ne _ _ _ _ hne2,
      fun key hk => find_assign_ne _ _ _ _ hk⟩,
    ⟨happ _, find_assign _ _ _, ?_, hidem _⟩,
    ⟨happ _, find_assign _ _ _, ?_, hidem _⟩⟩
  · intro key hf ho
    simp only [Base64BinaryAppendedWriter.addDataAttributes]
    rw [find_assign_ne _ _ _ _ ho, find_assign_ne _ _ _ _ hf]
  · intro key hf ho
    simp only [RawBinaryAppendedWriter.addDataAttributes]
    rw [find_assign_ne _ _ _ _ ho, find_assign_ne _ _ _ _ hf]

/-- C11, at a concrete input: an attribute set holding `Name` and a stale
`offset`, and appended writers whose offsets are 28 and 21. -/
theorem addDataAttributes_effect_witness :
    ("Name" : String) ≠ "format" ∧ ("Name" : String) ≠ "offset" ∧
    (AsciiWriter.addDataAttributes sampleAttributes).find "Name" = some "Points" ∧
    (AsciiWriter.addDataAttributes sampleAttributes).find "offset" = some "7" ∧
    (Base64BinaryAppendedWriter.addDataAttributes ⟨[], 28⟩ sampleAttributes).find "Name" =
      some "Points" ∧
    (Base64BinaryAppendedWriter.addDataAttributes ⟨[], 28⟩ sampleAttributes).find "offset" =
      some "28" ∧
    (RawBinaryAppendedWriter.addDataAttributes ⟨[], 21⟩ sampleAttributes).find "format" =
      some "appended" :=
  ⟨by decide, by decide,
   ((addDataAttributes_effect sampleAttributes ⟨[], 28⟩ ⟨[], 21⟩).1.2.2 "Name"
      (by decide)).trans (by decide),
   ((addDataAttributes_effect sampleAttributes ⟨[], 28⟩ ⟨[], 21⟩).1.2.1).trans (by decide),
   ((addDataAttributes_effect sampleAttributes ⟨[], 28⟩ ⟨[], 21⟩).2.2.1.2.2.1 "Name"
      (by decide) (by decide)).trans (by decide),
   ((addDataAttributes_effect sampleAttributes ⟨[], 28⟩ ⟨[], 21⟩).2.2.1.2.1).trans
     (by decide),
   (addDataAttributes_effect sampleAttributes ⟨[], 28⟩ ⟨[], 21⟩).2.2.2.1⟩

/-- C12. `appendedAttributes` returns exactly the one entry `encoding = base64`
for `Base64BinaryAppendedWriter`, exactly `encoding = raw` for
`RawBinaryAppendedWriter`, and the empty attribute set for `AsciiWriter` and
`Base64BinaryWriter`. The functions read no member of the writer, so the
result is the same whatever has been registered. -/
theorem appendedAttributes_entries :
    (Base64BinaryAppendedWriter.appendedAttributes.entries = [("encoding", "base64")] ∧
      ∀ key : String, Base64BinaryAppendedWriter.appendedAttributes.find key =
        if key = "encoding" then some "base64" else none) ∧
    (RawBinaryAppendedWriter.appendedAttributes.entries = [("encoding", "raw")] ∧
      ∀ key : String, RawBinaryAppendedWriter.appendedAttributes.find key =
        if key = "encoding" then some "raw" else none) ∧
    (AsciiWriter.appendedAttributes.entries = [] ∧
      ∀ key : String, AsciiWriter.appendedAttributes.find key = none) ∧
    (Base64BinaryWriter.appendedAttributes.entries = [] ∧
      ∀ key : String, Base64BinaryWriter.appendedAttributes.find key = none) := by
  refine ⟨⟨rfl, fun key => ?_⟩, ⟨rfl, fun key => ?_⟩, ⟨rfl, fun key => rfl⟩,
    ⟨rfl, fun key => rfl⟩⟩
  · by_cases h : key = "encoding"
    · subst h; rfl
    · have h2 : ¬ "encoding" = key := fun e => h e.symm
      simp [Base64BinaryAppendedWriter.appendedAttributes, StringStringMap.find, h, h2]
  · by_cases h : key = "encoding"
    · subst h; rfl
    · have h2 : ¬ "encoding" = key := fun e => h e.symm
      simp [RawBinaryAppendedWriter.appendedAttributes, StringStringMap.find, h, h2]

/-- C13. `addHeaderAttributes` returns the attribute set as it received it for
`AsciiWriter`; each of the three binary writers stores the same string, the
description `dataTypeString<HeaderType>( )` of the header type, under the key
`header_type` and leaves every other key as it was, so that the three results
are equal. -/
theorem addHeaderAttributes_effect (headerTypeString : String)
    (attributes : StringStringMap) :
    AsciiWriter.addHeaderAttributes attributes = attributes ∧
    ((Base64BinaryWriter.addHeaderAttributes headerTypeString attributes).find "header_type" =
        some headerTypeString ∧
      ∀ key : String, key ≠ "header_type" →
        (Base64BinaryWriter.addHeaderAttributes headerTypeString attributes).find key =
          attributes.find key) ∧
    ((Base64BinaryAppendedWriter.addHeaderAttributes headerTypeString attributes).find
          "header_type" = some headerTypeString ∧
      ∀ key : String, key ≠ "header_type" →
        (Base64BinaryAppendedWriter.addHeaderAttributes headerTypeString attributes).find key =
          attributes.find key) ∧
    ((RawBinaryAppendedWriter.addHeaderAttributes headerTypeString attributes).find
          "header_type" = some headerTypeString ∧
      ∀ key : String, key ≠ "header_type" →
        (RawBinaryAppendedWriter.addHeaderAttributes headerTypeString attributes).find key =
          attributes.find key) ∧
    Base64BinaryWriter.addHeaderAttributes headerTypeString attributes =
      Base64BinaryAppendedWriter.addHeaderAttributes headerTypeString attributes ∧
    Base64BinaryAppendedWriter.addHeaderAttributes headerTypeString attributes =
      RawBinaryAppendedWriter.addHeaderAttributes headerTypeString attributes :=
  ⟨rfl,
   ⟨find_assign _ _ _, fun _ hk => find_assign_ne _ _ _ _ hk⟩,
   ⟨find_assign _ _ _, fun _ hk => find_assign_ne _ _ _ _ hk⟩,
   ⟨find_assign _ _ _, fun _ hk => find_assign_ne _ _ _ _ hk⟩,
   rfl, rfl⟩

/-- C13, at a concrete input: the header type `UInt64` and an attribute set
holding `Name` and `offset`. -/
theorem addHeaderAttributes_effect_witness :
    ("offset" : String) ≠ "header_type" ∧
    (Base64BinaryWriter.addHeaderAttributes "UInt64" sampleAttributes).find "offset" =
      some "7" ∧
    (RawBinaryAppendedWriter.addHeaderAttributes "UInt64" sampleAttributes).entries =
      [("Name", "Points"), ("offset", "7"), ("header_type", "UInt64")] :=
  ⟨by decide,
   ((addHeaderAttributes_effect "UInt64" sampleAttributes).2.1.2 "offset"
      (by decide)).trans (by decide),
   (congrArg StringStringMap.entries
     (addHeaderAttributes_effect "UInt64" sampleAttributes).2.2.2.2.2.symm).trans
     (by decide)⟩

/-! ## The codec -/

theorem base64Map_getD_index :
    ∀ j : Fin 64, base64Index (base64Map.getD j.val 'A') = some j.val ∧
      base64Map.getD j.val 'A' ≠ '=' ∧ base64Map.getD j.val 'A' ∈ base64Map := by
  decide

theorem base64Index_symbol (i : Nat) : base64Index (base64Symbol i) = some (i % 64) :=
  (base64Map_getD_index ⟨i % 64, Nat.mod_lt _ (by decide)⟩).1

theorem base64Symbol_ne_pad (i : Nat) : base64Symbol i ≠ '=' :=
  (base64Map_getD_index ⟨i % 64, Nat.mod_lt _ (by decide)⟩).2.1

theorem base64Symbol_mem (i : Nat) : base64Symbol i ∈ base64Map :=
  (base64Map_getD_index ⟨i % 64, Nat.mod_lt _ (by decide)⟩).2.2

theorem triple_induction {P : List Byte → Prop} (h0 : P []) (h1 : ∀ a, P [a])
    (h2 : ∀ a b, P [a, b]) (h3 : ∀ a b c rest, P rest → P (a :: b :: c :: rest)) :
    ∀ l : List Byte, P l
  | [] => h0
  | [a] => h1 a
  | [a, b] => h2 a b
  | a :: b :: c :: rest => h3 a b c rest (triple_induction h0 h1 h2 h3 rest)

theorem base64Encode_chars (bytes : List Byte) :
    ∀ ch ∈ base64Encode bytes, ch ∈ base64Map ∨ ch = '=' := by
  induction bytes using triple_induction with
  | h0 => simp [base64Encode]
  | h1 a => simp [base64Encode, base64Symbol_mem]
  | h2 a b => simp [base64Encode, base64Symbol_mem]
  | h3 a b c rest ih =>
    intro ch hch
    simp only [base64Encode, List.mem_cons] at hch
    rcases hch with h | h | h | h | h
    · exact Or.inl (h ▸ base64Symbol_mem _)
    · exact Or.inl (h ▸ base64Symbol_mem _)
    · exact Or.inl (h ▸ base64Symbol_mem _)
    · exact Or.inl (h ▸ base64Symbol_mem _)
    · exact ih ch h

/-- C14. The codec is standard base64. The alphabet has 64 distinct symbols,
none of them `=`. Three bytes form a 24-bit number whose four 6-bit digits are
translated into four symbols; a final group of two bytes is filled with two
zero bits and gives three symbols and one `=`, a final group of one byte is
filled with four zero bits and gives two symbols and `==`. The output has four
characters per started group and consists of symbols of the alphabet and `=`
only. The bytes `4D 61 6E` give `TWFu` and the byte `01` gives `AQ==`. -/
theorem base64Encode_standard :
    (base64Map.length = 64 ∧ base64Map.Nodup ∧ '=' ∉ base64Map) ∧
    (∀ (a b c : Byte) (rest : List Byte),
      base64Encode (a :: b :: c :: rest) =
        base64Symbol ((a.val * 65536 + b.val * 256 + c.val) / 262144 % 64) ::
        base64Symbol ((a.val * 65536 + b.val * 256 + c.val) / 4096 % 64) ::
        base64Symbol ((a.val * 65536 + b.val * 256 + c.val) / 64 % 64) ::
        base64Symbol ((a.val * 65536 + b.val * 256 + c.val) % 64) ::
        base64Encode rest) ∧
    (∀ a b : Byte,
      base64Encode [a, b] =
        [base64Symbol ((a.val * 256 + b.val) * 4 / 4096 % 64),
         base64Symbol ((a.val * 256 + b.val) * 4 / 64 % 64),
         base64Symbol ((a.val * 256 + b.val) * 4 % 64), '=']) ∧
    (∀ a : Byte,
      base64Encode [a] =
        [base64Symbol (a.val * 16 / 64 % 64), base64Symbol (a.val * 16 % 64), '=', '=']) ∧
    base64Encode [] = [] ∧
    (∀ bytes : List Byte, (base64Encode bytes).length = 4 * ((bytes.length + 2) / 3)) ∧
    (∀ bytes : List Byte, ∀ ch ∈ base64Encode bytes, ch ∈ base64Map ∨ ch = '=') ∧
    base64Encode [0x4D, 0x61, 0x6E] = "TWFu".toList ∧
    base64Encode [0x01] = "AQ==".toList := by
  refine ⟨by decide, ?_, ?_, ?_, rfl, base64Encode_length, base64Encode_chars,
    by decide, by decide⟩
  · intro a b c rest
    have ha := a.isLt
    have hb := b.isLt
    have hc := c.isLt
    have e1 : a.val / 4 = (a.val * 65536 + b.val * 256 + c.val) / 262144 % 64 := by omega
    have e2 : a.val % 4 * 16 + b.val / 16 =
        (a.val * 65536 + b.val * 256 + c.val) / 4096 % 64 := by omega
    have e3 : b.val % 16 * 4 + c.val / 64 =
        (a.val * 65536 + b.val * 256 + c.val) / 64 % 64 := by omega
    have e4 : c.val % 64 = (a.val * 65536 + b.val * 256 + c.val) % 64 := by omega
    rw [← e1, ← e2, ← e3, ← e4]
    rfl
  · intro a b
    have ha := a.isLt
    have hb := b.isLt
    have e1 : a.val / 4 = (a.val * 256 + b.val) * 4 / 4096 % 64 := by omega
    have e2 : a.val % 4 * 16 + b.val / 16 = (a.val * 256 + b.val) * 4 / 64 % 64 := by omega
    have e3 : b.val % 16 * 4 = (a.val * 256 + b.val) * 4 % 64 := by omega
    rw [← e1, ← e2, ← e3]
    rfl
  · intro a
    have ha := a.isLt
    have e1 : a.val / 4 = a.val * 16 / 64 % 64 := by omega
    have e2 : a.val % 4 * 16 = a.val * 16 % 64 := by omega
    rw [← e1, ← e2]
    rfl

theorem byteOf_first (a b : Nat) (ha : a < 256) (hb : b < 256) :
    byteOf (a / 4 % 64 * 4 + (a % 4 * 16 + b / 16) % 64 / 16) = ⟨a, ha⟩ := by
  apply Fin.ext
  simp only [byteOf]
  omega

theorem byteOf_second (a b c : Nat) (hb : b < 256) (hc : c < 256) :
    byteOf ((a % 4 * 16 + b / 16) % 64 % 16 * 16 + (b % 16 * 4 + c / 64) % 64 / 4) =
      ⟨b, hb⟩ := by
  apply Fin.ext
  simp only [byteOf]
  omega

theorem byteOf_third (b c : Nat) (hc : c < 256) :
    byteOf ((b % 16 * 4 + c / 64) % 64 % 4 * 64 + c % 64) = ⟨c, hc⟩ := by
  apply Fin.ext
  simp only [byteOf]
  omega

/-- C15. Decoding the output of the codec gives back the bytes that were
encoded, for every byte sequence; the lengths 0, 1, 2 and 3, where the padding
differs, are also evaluated. -/
theorem base64_round_trip :
    (∀ bytes : List Byte, base64Decode (base64Encode bytes) = some bytes) ∧
    base64Decode (base64Encode []) = some [] ∧
    base64Decode (base64Encode [0xFF]) = some [0xFF] ∧
    base64Decode (base64Encode [0xFF, 0x01]) = some [0xFF, 0x01] ∧
    base64Decode (base64Encode [0x4D, 0x61, 0x6E]) = some [0x4D, 0x61, 0x6E] ∧
    base64Decode (base64Encode [0x4D, 0x61, 0x6E, 0x80]) = some [0x4D, 0x61, 0x6E, 0x80] := by
  refine ⟨?_, by decide, by decide, by decide, by decide, by decide⟩
  intro bytes
  induction bytes using triple_induction with
  | h0 => rfl
  | h1 a =>
    have h := byteOf_first a.val 0 a.isLt (by decide)
    simp only [Nat.zero_div, Nat.add_zero] at h
    simp [base64Encode, base64Decode, base64Index_symbol, h]
  | h2 a b =>
    have h1 := byteOf_first a.val b.val a.isLt b.isLt
    have h2 := byteOf_second a.val b.val 0 b.isLt (by decide)
    simp only [Nat.zero_div, Nat.add_zero] at h2
    simp [base64Encode, base64Decode, base64Index_symbol, base64Symbol_ne_pad, h1, h2]
  | h3 a b c rest ih =>
    have h1 := byteOf_first a.val b.val a.isLt b.isLt
    have h2 := byteOf_second a.val b.val c.val b.isLt c.isLt
    have h3 := byteOf_third b.val c.val c.isLt
    simp [base64Encode, base64Decode, base64Index_symbol, base64Symbol_ne_pad, ih, h1, h2, h3]

/-! ## The conversion buffer -/

theorem decimal_length (n e : Nat) (h : n < 10 ^ e) (he : 0 < e) :
    (decimal n).length ≤ e :=
  Nat.toDigitsCore_length 10 (by decide) (n + 1) n e h he

theorem decimalInt_length (v : Int) (hlo : -9223372036854775808 ≤ v)
    (hhi : v < 18446744073709551616) : (decimalInt v).length ≤ 20 := by
  unfold decimalInt
  split
  · have h : v.natAbs < 10 ^ 19 := by norm_num; omega
    have := decimal_length v.natAbs 19 h (by decide)
    simp only [List.length_cons]
    omega
  · have h : v.natAbs < 10 ^ 20 := by norm_num; omega
    exact decimal_length v.natAbs 20 h (by decide)

theorem toSigned_range (bits : Nat) (v : Int) (hb : 0 < bits) :
    -(2 : Int) ^ (bits - 1) ≤ toSigned bits v ∧ toSigned bits v < 2 ^ (bits - 1) := by
  have hpow : (2 : Int) ^ bits = 2 * 2 ^ (bits - 1) := by
    obtain ⟨k, rfl⟩ : ∃ k, bits = k + 1 := ⟨bits - 1, by omega⟩
    simp [pow_succ, mul_comm]
  have hpos : (0 : Int) < 2 ^ bits := by positivity
  have h0 := Int.emod_nonneg v (ne_of_gt hpos)
  have h1 := Int.emod_lt_of_pos v hpos
  unfold toSigned
  split <;> constructor <;> omega

theorem toUnsigned_range (bits : Nat) (v : Int) :
    0 ≤ toUnsigned bits v ∧ toUnsigned bits v < 2 ^ bits := by
  have hpos : (0 : Int) < 2 ^ bits := by positivity
  exact ⟨Int.emod_nonneg v (ne_of_gt hpos), Int.emod_lt_of_pos v hpos⟩

theorem convert_formatStr_range (T : IntegerType) (value : Int) :
    -9223372036854775808 ≤ convert (detail.formatStr T) value ∧
      convert (detail.formatStr T) value < 18446744073709551616 := by
  have h64 := toSigned_range 64 value (by decide)
  have h32 := toSigned_range 32 value (by decide)
  have h16 := toSigned_range 16 value (by decide)
  have h8 := toSigned_range 8 value (by decide)
  have hu := toUnsigned_range 64 value
  norm_num at h64 h32 h16 h8 hu
  cases T <;> simp only [detail.formatStr, convert] <;> (try simp only [String.reduceEq]) <;>
    simp only [if_true, if_false] <;> constructor <;> omega

/-- C17. For every integer element type and every value of it (indeed for
every argument), the text `snprintf` produces has at most 20 characters, so
nothing of it is cut off by the buffer of 64 bytes, which holds 63 characters
and the terminator. The bound is attained by the smallest `long long`. -/
theorem ascii_buffer_suffices (T : IntegerType) (value : Int) :
    (decimalInt (convert (detail.formatStr T) value)).length ≤ 20 ∧
    snprintf 64 (detail.formatStr T) value = decimalInt (convert (detail.formatStr T) value) ∧
    (snprintf 64 (detail.formatStr T) value).length + 1 ≤ 64 ∧
    (snprintf 64 (detail.formatStr .longLongInt) (-9223372036854775808)).length = 20 := by
  have hr := convert_formatStr_range T value
  have hlen := decimalInt_length _ hr.1 hr.2
  have htake : snprintf 64 (detail.formatStr T) value =
      decimalInt (convert (detail.formatStr T) value) := by
    unfold snprintf
    exact List.take_of_length_le (by omega)
  refine ⟨hlen, htake, ?_, by decide⟩
  rw [htake]
  omega

/-! ## Frame properties -/

theorem base64_writeAppended_split (t : Target) (w : Base64BinaryAppendedWriter)
    (output : Sink) :
    Base64BinaryAppendedWriter.writeAppended t w output =
      output ++ Base64BinaryAppendedWriter.writeAppended t w [] := by
  simp [Base64BinaryAppendedWriter.writeAppended, base64_foldl_writeDataSet, putStr,
    List.append_assoc]

theorem raw_writeAppended_split (t : Target) (w : RawBinaryAppendedWriter) (output : Sink) :
    RawBinaryAppendedWriter.writeAppended t w output =
      output ++ RawBinaryAppendedWriter.writeAppended t w [] := by
  simp [RawBinaryAppendedWriter.writeAppended, raw_foldl_writeDataSet, putStr,
    List.append_assoc]

/-- C18. `writeData` of either appended writer leaves the stream as it was,
for every array; the recorded list grows by exactly one pair at its end (the
pointer to the payload and the byte count as a `HeaderType`, which is the byte
count of the array when that is representable), earlier pairs are kept, and
the offset strictly advances; a whole sequence of calls leaves the stream as it
was and records one pair per array. -/
theorem deferred_writeData_frame (t : Target) (w64 : Base64BinaryAppendedWriter)
    (wraw : RawBinaryAppendedWriter) (output : Sink) (data : TypedArray) :
    ((Base64BinaryAppendedWriter.writeData t w64 output data).2 = output ∧
      (Base64BinaryAppendedWriter.writeData t w64 output data).1.appendedData =
        w64.appendedData ++ [(data.mem, toHeaderType t (data.size * data.elemSize))] ∧
      (Base64BinaryAppendedWriter.writeData t w64 output data).1.offset =
        w64.offset +
          encodedNumberOfBytes (toHeaderType t (data.size * data.elemSize) + t.headerSize) ∧
      w64.offset < (Base64BinaryAppendedWriter.writeData t w64 output data).1.offset ∧
      ∀ arrays : List TypedArray,
        (Base64BinaryAppendedWriter.writeAll t w64 output arrays).2 = output ∧
        (Base64BinaryAppendedWriter.writeAll t w64 output arrays).1.appendedData.length =
          w64.appendedData.length + arrays.length) ∧
    ((RawBinaryAppendedWriter.writeData t wraw output data).2 = output ∧
      (RawBinaryAppendedWriter.writeData t wraw output data).1.appendedData =
        wraw.appendedData ++ [(data.mem, toHeaderType t (data.size * data.elemSize))] ∧
      (RawBinaryAppendedWriter.writeData t wraw output data).1.offset =
        wraw.offset + (t.headerSize + toHeaderType t (data.size * data.elemSize)) ∧
      wraw.offset < (RawBinaryAppendedWriter.writeData t wraw output data).1.offset ∧
      ∀ arrays : List TypedArray,
        (RawBinaryAppendedWriter.writeAll t wraw output arrays).2 = output ∧
        (RawBinaryAppendedWriter.writeAll t wraw output arrays).1.appendedData.length =
          wraw.appendedData.length + arrays.length) ∧
    (data.Fits t →
      (Base64BinaryAppendedWriter.writeData t w64 output data).1.appendedData =
        w64.appendedData ++ [(data.mem, data.byteCount)] ∧
      (RawBinaryAppendedWriter.writeData t wraw output data).1.appendedData =
        wraw.appendedData ++ [(data.mem, data.byteCount)]) := by
  have hpos := t.headerSize_pos
  have henc := encodedNumberOfBytes_gt (toHeaderType t (data.size * data.elemSize))
    t.headerSize hpos
  refine ⟨⟨rfl, rfl, rfl, ?_, fun arrays => ?_⟩, ⟨rfl, rfl, rfl, ?_, fun arrays => ?_⟩,
    fun hfit => ?_⟩
  · simp only [Base64BinaryAppendedWriter.writeData]
    omega
  · rw [base64_writeAll_spec]
    simp
  · simp only [RawBinaryAppendedWriter.writeData]
    omega
  · rw [raw_writeAll_spec]
    simp
  · have h := toHeaderType_of_fits hfit
    simp [Base64BinaryAppendedWriter.writeData, RawBinaryAppendedWriter.writeData, h]

/-- C18, at a concrete input: registering two elements of two bytes on writers
that hold one record, with text already in the stream. -/
theorem deferred_writeData_frame_witness :
    arrayB.Fits target64 ∧
    (Base64BinaryAppendedWriter.writeData target64 ⟨[([1], 1)], 12⟩ [60, 62] arrayB).2 =
      [60, 62] ∧
    (Base64BinaryAppendedWriter.writeData target64 ⟨[([1], 1)], 12⟩ [60, 62]
        arrayB).1.appendedData = [([1], 1), ([0x4D, 0x61, 0x6E, 0x00], 4)] ∧
    (RawBinaryAppendedWriter.writeData target64 ⟨[([1], 1)], 9⟩ [60, 62]
        arrayB).1.appendedData = [([1], 1), ([0x4D, 0x61, 0x6E, 0x00], 4)] ∧
    (RawBinaryAppendedWriter.writeData target64 ⟨[([1], 1)], 9⟩ [60, 62] arrayB).1.offset =
      21 :=
  ⟨by decide,
   (deferred_writeData_frame target64 ⟨[([1], 1)], 12⟩ ⟨[([1], 1)], 9⟩ [60, 62]
      arrayB).1.1,
   ((deferred_writeData_frame target64 ⟨[([1], 1)], 12⟩ ⟨[([1], 1)], 9⟩ [60, 62]
      arrayB).2.2 (by decide)).1,
   ((deferred_writeData_frame target64 ⟨[([1], 1)], 12⟩ ⟨[([1], 1)], 9⟩ [60, 62]
      arrayB).2.2 (by decide)).2,
   ((deferred_writeData_frame target64 ⟨[([1], 1)], 12⟩ ⟨[([1], 1)], 9⟩ [60, 62]
      arrayB).2.1.2.2.1).trans (by decide)⟩

/-- C19. `writeAppended` of `AsciiWriter` and of `Base64BinaryWriter` returns
the stream byte for byte as it received it, whatever the stream holds, in
particular after any sequence of `writeData` calls; no newline is added. -/
theorem immediate_writeAppended_noop (output : Sink) :
    AsciiWriter.writeAppended output = output ∧
    Base64BinaryWriter.writeAppended output = output ∧
    (∀ (T : IntegerType) (arrays : List (List Int)),
      AsciiWriter.writeAppended (arrays.foldl (AsciiWriter.writeData T) output) =
        arrays.foldl (AsciiWriter.writeData T) output) ∧
    (∀ arrays : List (List Int8),
      AsciiWriter.writeAppended (arrays.foldl AsciiWriter.writeData_int8 output) =
        arrays.foldl AsciiWriter.writeData_int8 output) ∧
    (∀ (t : Target) (arrays : List TypedArray),
      Base64BinaryWriter.writeAppended (arrays.foldl (Base64BinaryWriter.writeData t) output) =
        arrays.foldl (Base64BinaryWriter.writeData t) output) ∧
    (AsciiWriter.writeAppended output).length = output.length ∧
    (Base64BinaryWriter.writeAppended output).length = output.length :=
  ⟨rfl, rfl, fun _ _ => rfl, fun _ => rfl, fun _ _ => rfl, rfl, rfl⟩

/-- C20. `writeAppended` of either appended writer only reads the recorded
list and the offset: what it appends does not depend on the stream, ends with
the newline, and a second call on the same writer appends the same bytes once
more, so that the stream then holds the trailing section twice. -/
theorem deferred_writeAppended_repeatable (t : Target) (w64 : Base64BinaryAppendedWriter)
    (wraw : RawBinaryAppendedWriter) (output : Sink) :
    (Base64BinaryAppendedWriter.writeAppended t w64 output =
        output ++ Base64BinaryAppendedWriter.writeAppended t w64 [] ∧
      Base64BinaryAppendedWriter.writeAppended t w64
          (Base64BinaryAppendedWriter.writeAppended t w64 output) =
        output ++ Base64BinaryAppendedWriter.writeAppended t w64 [] ++
          Base64BinaryAppendedWriter.writeAppended t w64 [] ∧
      (Base64BinaryAppendedWriter.writeAppended t w64 []).getLast? = some (charByte '\n')) ∧
    (RawBinaryAppendedWriter.writeAppended t wraw output =
        output ++ RawBinaryAppendedWriter.writeAppended t wraw [] ∧
      RawBinaryAppendedWriter.writeAppended t wraw
          (RawBinaryAppendedWriter.writeAppended t wraw output) =
        output ++ RawBinaryAppendedWriter.writeAppended t wraw [] ++
          RawBinaryAppendedWriter.writeAppended t wraw [] ∧
      (RawBinaryAppendedWriter.writeAppended t wraw []).getLast? = some (charByte '\n')) := by
  refine ⟨⟨base64_writeAppended_split t w64 output, ?_, ?_⟩,
    ⟨raw_writeAppended_split t wraw output, ?_, ?_⟩⟩
  · rw [base64_writeAppended_split t w64 (Base64BinaryAppendedWriter.writeAppended t w64 output),
      base64_writeAppended_split t w64 output]
  · simp [Base64BinaryAppendedWriter.writeAppended, putStr, textBytes]
  · rw [raw_writeAppended_split t wraw (RawBinaryAppendedWriter.writeAppended t wraw output),
      raw_writeAppended_split t wraw output]
  · simp [RawBinaryAppendedWriter.writeAppended, putStr, textBytes]

end Vtu11
